import Mathlib

/-!
Verification of the wordle solver core (`src/lib.rs`, `src/wordle.rs`,
`src/dordle.rs`).

Words are modelled as functions `Fin 5 → Nat` giving the byte value at each
of the five positions (the Rust code works on `&[u8]` slices whose length-5
assertions we reflect in the fixed index type; the slice-level checked
variants used for the safety claim are defined separately over `List Nat`).
The 26-entry `i8` histogram array is modelled as a total function
`Nat → ℤ`; the code only ever reads and writes indices `byte - b'a'`, and
all values stay far inside the `i8` range, so no wraparound modelling is
needed.  `usize` arithmetic in the guess selectors is modelled as `ℕ` with
truncated subtraction; the single subtraction `sco * 2 - 1` only happens
when `sco ≥ 1` under the hypotheses of the theorems below.
-/

inductive Color : Type where
  | GREY : Color
  | YELLOW : Color
  | GREEN : Color
deriving DecidableEq

abbrev Word : Type := Fin 5 → Nat

abbrev Histogram : Type := Nat → ℤ

/-- All five bytes are lowercase ASCII letters (`b'a' = 97` … `b'z' = 122`). -/
def LowercaseW (w : Word) : Prop := ∀ i : Fin 5, 97 ≤ w i ∧ w i < 123

instance (w : Word) : Decidable (LowercaseW w) := by
  unfold LowercaseW; infer_instance

/-- Pointwise update of a function, modelling an array store. -/
def upd {α β : Type} [DecidableEq α] (f : α → β) (i : α) (v : β) : α → β :=
  fun j => if j = i then v else f j

/-- The index sequence of the `for i in 0..5` loops. -/
def positions : List (Fin 5) := [0, 1, 2, 3, 4]

/-- Loop of `histo` (src/lib.rs:18): for each letter, `+= 1` if the entry is
positive, else `+= 2`, starting from the all-`-1` table. -/
def histoAux (w : Word) : List (Fin 5) → Histogram → Histogram
  | [], h => h
  | j :: js, h =>
      histoAux w js
        (upd h (w j - 97)
          (if h (w j - 97) > 0 then h (w j - 97) + 1 else h (w j - 97) + 2))

/-- `histo` (src/lib.rs:18-30). -/
def histo (w : Word) : Histogram := histoAux w positions (fun _ => -1)

/-- Green pass of `score` (src/lib.rs:41-48): on each position where answer
and guess agree, decrement the histogram entry of that letter. -/
def greenHist (answ guess : Word) : List (Fin 5) → Histogram → Histogram
  | [], h => h
  | j :: js, h =>
      greenHist answ guess js
        (if answ j = guess j then
          upd h (answ j - 97) (h (answ j - 97) - 1)
        else h)

/-- Result array after the green pass of `score`: GREEN at matches, GREY
elsewhere (src/lib.rs:33,45). -/
def res0 (answ guess : Word) : Fin 5 → Color :=
  fun i => if answ i = guess i then Color.GREEN else Color.GREY

/-- Yellow pass of `score` (src/lib.rs:51-60): at each non-matching position
whose guess letter still has a positive remaining count, mark YELLOW and
decrement. -/
def yellowPass (answ guess : Word) : List (Fin 5) → Histogram → (Fin 5 → Color) → (Fin 5 → Color)
  | [], _, res => res
  | j :: js, h, res =>
      if answ j = guess j then yellowPass answ guess js h res
      else
        if h (guess j - 97) > 0 then
          yellowPass answ guess js
            (upd h (guess j - 97) (h (guess j - 97) - 1))
            (upd res j Color.YELLOW)
        else yellowPass answ guess js h res

/-- `score` (src/lib.rs:32-63). -/
def score (answ guess : Word) : Fin 5 → Color :=
  yellowPass answ guess positions
    (greenHist answ guess positions (histo answ))
    (res0 answ guess)

/-- First pass of `AnswerIterator::eligible` (src/lib.rs:104-116): GREEN
positions must match (else early `return false`, modelled as `none`), and
GREEN/YELLOW positions decrement the guess letter's histogram entry. -/
def elig1 (word guess : Word) (result : Fin 5 → Color) : List (Fin 5) → Histogram → Option Histogram
  | [], h => some h
  | j :: js, h =>
      match result j with
      | Color.GREEN =>
          if word j = guess j then
            elig1 word guess result js
              (upd h (guess j - 97) (h (guess j - 97) - 1))
          else none
      | Color.YELLOW =>
          elig1 word guess result js
            (upd h (guess j - 97) (h (guess j - 97) - 1))
      | Color.GREY => elig1 word guess result js h

/-- Second pass of `AnswerIterator::eligible` (src/lib.rs:119-144): on each
non-GREEN position the candidate letter must differ from the guess letter,
a YELLOW needs a non-negative remaining count, a GREY a non-positive one. -/
def elig2 (word guess : Word) (result : Fin 5 → Color) (h : Histogram) : List (Fin 5) → Bool
  | [] => true
  | j :: js =>
      if result j = Color.GREEN then elig2 word guess result h js
      else if word j = guess j then false
      else if result j = Color.YELLOW ∧ h (guess j - 97) < 0 then false
      else if result j = Color.GREY ∧ h (guess j - 97) > 0 then false
      else elig2 word guess result h js

/-- `AnswerIterator::eligible` (src/lib.rs:93-147), taking the candidate's
precomputed histogram as the iterator does (`self.histos[self.index]`). -/
def eligible (word : Word) (hist : Histogram) (guess : Word) (result : Fin 5 → Color) : Bool :=
  match elig1 word guess result positions hist with
  | none => false
  | some h => elig2 word guess result h positions

/-- `AnswerIterator::prune` + `next` (src/lib.rs:87-91,150-164): the iterator
walks the parallel `answers`/`histos` slices and yields the eligible
candidates in order. -/
def prune (answers : List Word) (histos : List Histogram) (guess : Word)
    (result : Fin 5 → Color) : List Word :=
  (answers.zip histos).filterMap
    (fun p => if eligible p.1 p.2 guess result then some p.1 else none)

/-- Eager pruning as every caller performs it (`maybe_prune`, src/lib.rs:195-201,
and the simulation loops): recompute the histogram of each current candidate
and filter. -/
def pruneE (answers : List Word) (guess : Word) (result : Fin 5 → Color) : List Word :=
  prune answers (answers.map (fun a => histo a)) guess result

/-- `parse_guess` (src/lib.rs:166-175) at byte-slice level: length-5 strings
are copied byte for byte (the `res` array starts zeroed), everything else is
rejected.  No character-class check is performed. -/
def parse_guess (s : List Nat) : Option Word :=
  if s.length = 5 then some (fun i : Fin 5 => s.getD i.val 0) else none


/-- Inner loop of `best_guess` (src/wordle.rs:20-27): the worst case, over
every remaining answer, of the number of candidates left after pruning with
the feedback that answer would give. -/
def worstScore (answers : List Word) (histos : List Histogram) (guess : Word) : Nat :=
  answers.foldl
    (fun sco answ => max sco (prune answers histos guess (score answ guess)).length)
    0

def USIZE_MAX : Nat := 2 ^ 64 - 1

/-- Selection loop shared by src/wordle.rs:35-46 and src/dordle.rs:41-52:
starting from `(None, usize::MAX)`, strictly improve on the adjusted score. -/
def selectBest (f : Nat × Word → Nat) (scored : List (Nat × Word)) : Option Word × Nat :=
  scored.foldl
    (fun best sg => if f sg < best.2 then (some sg.2, f sg) else best)
    (none, USIZE_MAX)

/-- Tie-break adjustment (src/wordle.rs:37-40): double the worst-case score
and subtract one when the guess is itself a possible answer. -/
def wordleScaled (answers : List Word) (sg : Nat × Word) : Nat :=
  sg.1 * 2 - (if sg.2 ∈ answers then 1 else 0)

/-- Single-board `best_guess` (src/wordle.rs:8-49).  `par_iter().map().collect()`
preserves the order of `guesses`, so the scored list is a plain map. -/
def wordleBestGuess (answers guesses : List Word) : Option Word × Nat :=
  let histos := answers.map (fun a => histo a)
  selectBest (wordleScaled answers)
    (guesses.map (fun guess => (worstScore answers histos guess, guess)))

/-- Printed worst case (src/wordle.rs:54 and src/dordle.rs:60): the adjusted
score is mapped back with `(bestsco + 1) / 2`. -/
def printedWorstCase (bestsco : Nat) : Nat := (bestsco + 1) / 2

/-- Inner loop of the two-board `best_guess` (src/dordle.rs:27-36): for each
hypothetical answer, sum the two boards' remaining-candidate counts after
pruning each with its own feedback, and take the worst case. -/
def dordleWorstScore (answersLeft answersRight : List Word)
    (histosLeft histosRight : List Histogram) (total : List Word) (guess : Word) : Nat :=
  total.foldl
    (fun sco answ =>
      max sco
        ((prune answersLeft histosLeft guess (score answ guess)).length +
          (prune answersRight histosRight guess (score answ guess)).length))
    0

/-- Tie-break adjustment of the two-board selector (src/dordle.rs:43-46),
with membership tested against the union of both boards. -/
def dordleScaled (total : List Word) (sg : Nat × Word) : Nat :=
  sg.1 * 2 - (if sg.2 ∈ total then 1 else 0)

/-- Two-board `best_guess` (src/dordle.rs:8-55).  `answers_total` is a
`HashSet` union of both boards; it is only consumed by an order-insensitive
`max` fold and by membership tests, both of which are also insensitive to
duplicates, so it is modelled as the list append. -/
def dordleBestGuess (answersLeft answersRight guesses : List Word) : Option Word × Nat :=
  let histosLeft := answersLeft.map (fun a => histo a)
  let histosRight := answersRight.map (fun a => histo a)
  let total := answersLeft ++ answersRight
  selectBest (dordleScaled total)
    (guesses.map
      (fun guess =>
        (dordleWorstScore answersLeft answersRight histosLeft histosRight total guess, guess)))

/-!
Checked slice-level variants for the safety claim.  These mirror the source
at `&[u8]` level and return `none` exactly where the Rust code would fail:
a violated `assert!`, a `u8` subtraction `b - b'a'` that underflows, or a
histogram index outside `0..26` (for a byte `b ≥ 97` the index `b - 97` is
in range iff `b < 123`).
-/

/-- Checked histogram index `b - b'a'` (underflow or out-of-bounds is `none`). -/
def hidx (b : Nat) : Option Nat :=
  if 97 ≤ b ∧ b < 123 then some (b - 97) else none

/-- Checked `histo` over a raw byte slice (src/lib.rs:18-30), including the
`assert!(word.len() == 5)`. -/
def histoChecked (word : List Nat) : Option Histogram :=
  if word.length = 5 then
    word.foldl
      (fun acc b =>
        acc.bind (fun h =>
          (hidx b).map (fun i => upd h i (if h i > 0 then h i + 1 else h i + 2))))
      (some (fun _ => -1))
  else none

/-- Checked green pass of `score` over byte slices (src/lib.rs:41-48); the
histogram index is computed from the answer byte at matching positions. -/
def scoreGreenChecked : List (Nat × Nat) → Histogram → Option Histogram
  | [], h => some h
  | (a, g) :: rest, h =>
      if a = g then
        (hidx a).bind (fun i => scoreGreenChecked rest (upd h i (h i - 1)))
      else scoreGreenChecked rest h

/-- Checked yellow pass of `score` over byte slices (src/lib.rs:51-60); the
histogram index of the guess byte is read at every non-matching position. -/
def scoreYellowChecked : List (Nat × Nat) → Histogram → Option (List Color)
  | [], _ => some []
  | (a, g) :: rest, h =>
      if a = g then (scoreYellowChecked rest h).map (fun cs => Color.GREEN :: cs)
      else
        (hidx g).bind (fun i =>
          if h i > 0 then
            (scoreYellowChecked rest (upd h i (h i - 1))).map (fun cs => Color.YELLOW :: cs)
          else (scoreYellowChecked rest h).map (fun cs => Color.GREY :: cs))

/-- Checked `score` (src/lib.rs:32-63): histogram of the answer (with its own
length assertion) first, then the two passes; `assert!` on both lengths. -/
def scoreChecked (answ guess : List Nat) : Option (List Color) :=
  (histoChecked answ).bind (fun h =>
    if answ.length = 5 ∧ guess.length = 5 then
      (scoreGreenChecked (answ.zip guess) h).bind (fun h2 =>
        scoreYellowChecked (answ.zip guess) h2)
    else none)

/-- Checked pass 1 of `eligible` (src/lib.rs:104-116): `some (some h)` means
the pass ran to completion, `some none` models the early `return false`,
`none` a failure. -/
def eligPass1Checked : List ((Nat × Nat) × Color) → Histogram → Option (Option Histogram)
  | [], h => some (some h)
  | ((w, g), r) :: rest, h =>
      match r with
      | Color.GREEN =>
          if w = g then
            (hidx g).bind (fun i => eligPass1Checked rest (upd h i (h i - 1)))
          else some none
      | Color.YELLOW =>
          (hidx g).bind (fun i => eligPass1Checked rest (upd h i (h i - 1)))
      | Color.GREY => eligPass1Checked rest h

/-- Checked pass 2 of `eligible` (src/lib.rs:119-144). -/
def eligPass2Checked (h : Histogram) : List ((Nat × Nat) × Color) → Option Bool
  | [] => some true
  | ((w, g), r) :: rest =>
      if r = Color.GREEN then eligPass2Checked h rest
      else if w = g then some false
      else
        (hidx g).bind (fun i =>
          if r = Color.YELLOW ∧ h i < 0 then some false
          else if r = Color.GREY ∧ h i > 0 then some false
          else eligPass2Checked h rest)

/-- Checked `eligible` (src/lib.rs:93-147) over byte slices, with the length
assertion on word, guess and result. -/
def eligChecked (word : List Nat) (h : Histogram) (guess : List Nat)
    (result : List Color) : Option Bool :=
  if word.length = 5 ∧ guess.length = 5 ∧ result.length = 5 then
    (eligPass1Checked ((word.zip guess).zip result) h).bind
      (fun oh =>
        match oh with
        | none => some false
        | some h2 => eligPass2Checked h2 ((word.zip guess).zip result))
  else none

/-- Number of non-matching positions in `js` whose guess letter has histogram
index `idx` — the positions that can still become YELLOW or GREY there. -/
def kcount (answ guess : Word) (idx : Nat) (js : List (Fin 5)) : Nat :=
  js.countP (fun j => decide (guess j - 97 = idx ∧ ¬answ j = guess j))

/-- Number of positions in `js` marked YELLOW by `r` whose guess letter has
histogram index `idx`. -/
def ycountR (r : Fin 5 → Color) (guess : Word) (idx : Nat) (js : List (Fin 5)) : Nat :=
  js.countP (fun j => decide (r j = Color.YELLOW ∧ guess j - 97 = idx))

/-- Green matches of the answer against the guess with histogram index `idx`
(the entries decremented by the green pass of `score`). -/
def gcount (answ guess : Word) (idx : Nat) (js : List (Fin 5)) : Nat :=
  js.countP (fun j => decide (answ j = guess j ∧ answ j - 97 = idx))

/-- GREEN positions of a result whose guess letter has histogram index `idx`. -/
def greencount (result : Fin 5 → Color) (guess : Word) (idx : Nat) (js : List (Fin 5)) : Nat :=
  js.countP (fun j => decide (result j = Color.GREEN ∧ guess j - 97 = idx))

/-- GREY positions of a result whose guess letter has histogram index `idx`. -/
def greycount (result : Fin 5 → Color) (guess : Word) (idx : Nat) (js : List (Fin 5)) : Nat :=
  js.countP (fun j => decide (result j = Color.GREY ∧ guess j - 97 = idx))

/-- GREEN-or-YELLOW positions of a result whose guess letter has histogram
index `idx` (the entries decremented by pass 1 of `eligible`). -/
def gycount (result : Fin 5 → Color) (guess : Word) (idx : Nat) (js : List (Fin 5)) : Nat :=
  js.countP
    (fun j => decide ((result j = Color.GREEN ∨ result j = Color.YELLOW) ∧ guess j - 97 = idx))

-- Sanity checks mirroring the Rust unit tests (src/lib.rs:69-75).
example :
    score ![115, 111, 108, 97, 114] ![116, 97, 115, 101, 114] =
      ![Color.GREY, Color.YELLOW, Color.YELLOW, Color.GREY, Color.GREEN] := by
  decide

example :
    score ![115, 111, 108, 97, 114] ![99, 108, 105, 110, 103] =
      ![Color.GREY, Color.YELLOW, Color.GREY, Color.GREY, Color.GREY] := by
  decide

theorem upd_same {α β : Type} [DecidableEq α] (f : α → β) (i : α) (v : β) :
    upd f i v i = v := by
  simp [upd]

theorem upd_ne {α β : Type} [DecidableEq α] (f : α → β) (i j : α) (v : β)
    (h : j ≠ i) : upd f i v j = f j := by
  simp [upd, h]

theorem mem_positions (j : Fin 5) : j ∈ positions := by
  fin_cases j <;> decide

theorem positions_nodup : positions.Nodup := by decide

/-- The yellow pass never touches a position where answer and guess agree. -/
theorem ypass_match (answ guess : Word) (i : Fin 5) (hm : answ i = guess i) :
    ∀ (js : List (Fin 5)) (h : Histogram) (res : Fin 5 → Color),
      yellowPass answ guess js h res i = res i := by
  intro js
  induction js with
  | nil => intro h res; rfl
  | cons j js ih =>
      intro h res
      by_cases hj : answ j = guess j
      · simp only [yellowPass, hj, if_pos rfl]
        simpa [hj] using ih _ _
      · have hij : i ≠ j := fun hcon => hj (hcon ▸ hm)
        simp only [yellowPass, if_neg hj]
        by_cases hpos : h (guess j - 97) > 0
        · simp only [if_pos hpos]
          rw [ih]
          exact upd_ne _ _ _ _ hij
        · simp only [if_neg hpos]
          exact ih _ _

/-- The yellow pass either leaves a position alone or writes YELLOW. -/
theorem ypass_mem (answ guess : Word) (i : Fin 5) :
    ∀ (js : List (Fin 5)) (h : Histogram) (res : Fin 5 → Color),
      yellowPass answ guess js h res i = res i ∨
        yellowPass answ guess js h res i = Color.YELLOW := by
  intro js
  induction js with
  | nil => intro h res; exact Or.inl rfl
  | cons j js ih =>
      intro h res
      by_cases hj : answ j = guess j
      · simp only [yellowPass, if_pos hj]
        exact ih _ _
      · simp only [yellowPass, if_neg hj]
        by_cases hpos : h (guess j - 97) > 0
        · simp only [if_pos hpos]
          rcases ih (upd h (guess j - 97) (h (guess j - 97) - 1))
              (upd res j Color.YELLOW) with h1 | h1
          · by_cases hij : i = j
            · subst hij; right; rw [h1]; exact upd_same _ _ _
            · left; rw [h1]; exact upd_ne _ _ _ _ hij
          · right; exact h1
        · simp only [if_neg hpos]
          exact ih _ _

/-- Positions not in the index list are untouched by the yellow pass. -/
theorem ypass_stable (answ guess : Word) :
    ∀ (js : List (Fin 5)) (h : Histogram) (res : Fin 5 → Color) (i : Fin 5),
      i ∉ js → yellowPass answ guess js h res i = res i := by
  intro js
  induction js with
  | nil => intro h res i _; rfl
  | cons j js ih =>
      intro h res i hi
      have hij : i ≠ j := fun hcon => hi (hcon ▸ List.mem_cons_self j js)
      have hits : i ∉ js := fun hcon => hi (List.mem_cons_of_mem j hcon)
      by_cases hj : answ j = guess j
      · simp only [yellowPass, if_pos hj]
        exact ih _ _ _ hits
      · simp only [yellowPass, if_neg hj]
        by_cases hpos : h (guess j - 97) > 0
        · simp only [if_pos hpos]
          rw [ih _ _ _ hits]
          exact upd_ne _ _ _ _ hij
        · simp only [if_neg hpos]
          exact ih _ _ _ hits

/-- A position of `score` is GREEN exactly when answer and guess agree there. -/
theorem score_green_iff (answ guess : Word) (i : Fin 5) :
    score answ guess i = Color.GREEN ↔ answ i = guess i := by
  constructor
  · intro hsc
    by_contra hne
    have h0 : res0 answ guess i = Color.GREY := by simp [res0, hne]
    rcases ypass_mem answ guess i positions
        (greenHist answ guess positions (histo answ)) (res0 answ guess) with h1 | h1
    · rw [score, h1, h0] at hsc; exact Color.noConfusion hsc
    · rw [score, h1] at hsc; exact Color.noConfusion hsc
  · intro hm
    rw [score, ypass_match answ guess i hm]
    simp [res0, hm]


/-- The yellow pass hands out, per histogram index, exactly
`min (max 0 budget) (slots)` YELLOW marks: the initial budget `h idx`
clamped at zero, capped by the number of non-matching positions with that
guess letter. -/
theorem yellow_count (answ guess : Word) :
    ∀ (js : List (Fin 5)) (h : Histogram) (res : Fin 5 → Color) (idx : Nat),
      js.Nodup → (∀ j ∈ js, res j ≠ Color.YELLOW) →
      (ycountR (yellowPass answ guess js h res) guess idx js : ℤ) =
        min (max 0 (h idx)) (kcount answ guess idx js) := by
  intro js
  induction js with
  | nil =>
      intro h res idx _ _
      simp only [ycountR, kcount, List.countP_nil, Nat.cast_zero]
      omega
  | cons j js ih =>
      intro h res idx hnd hres
      have hjnotin : j ∉ js := (List.nodup_cons.mp hnd).1
      have hndtl : js.Nodup := (List.nodup_cons.mp hnd).2
      have hresj : res j ≠ Color.YELLOW := hres j (List.mem_cons_self j js)
      have hrestl : ∀ k ∈ js, res k ≠ Color.YELLOW :=
        fun k hk => hres k (List.mem_cons_of_mem j hk)
      by_cases hm : answ j = guess j
      · -- matching head: no yellow here, no slot here
        have hstep : yellowPass answ guess (j :: js) h res = yellowPass answ guess js h res := by
          simp only [yellowPass, if_pos hm]
        have houtj : yellowPass answ guess js h res j = res j := ypass_stable answ guess js h res j hjnotin
        rw [hstep]
        rw [ycountR, List.countP_cons]
        have hpredj :
            (decide (yellowPass answ guess js h res j = Color.YELLOW ∧ guess j - 97 = idx)) = false := by
          simp [houtj, hresj]
        rw [hpredj]
        rw [kcount, List.countP_cons]
        have hkj : (decide (guess j - 97 = idx ∧ ¬answ j = guess j)) = false := by simp [hm]
        rw [hkj]
        simpa [ycountR, kcount] using ih h res idx hndtl hrestl
      · by_cases hpos : h (guess j - 97) > 0
        · -- non-matching head with positive budget: head becomes YELLOW
          have hstep : yellowPass answ guess (j :: js) h res =
              yellowPass answ guess js
                (upd h (guess j - 97) (h (guess j - 97) - 1))
                (upd res j Color.YELLOW) := by
            simp only [yellowPass, if_neg hm, if_pos hpos]
          set h' := upd h (guess j - 97) (h (guess j - 97) - 1) with hh'
          set res' := upd res j Color.YELLOW with hres'
          have houtj : yellowPass answ guess js h' res' j = Color.YELLOW := by
            rw [ypass_stable answ guess js h' res' j hjnotin, hres']
            exact upd_same _ _ _
          have hrestl' : ∀ k ∈ js, res' k ≠ Color.YELLOW := by
            intro k hk
            have hkj : k ≠ j := fun hcon => hjnotin (hcon ▸ hk)
            rw [hres', upd_ne _ _ _ _ hkj]
            exact hrestl k hk
          have IH := ih h' res' idx hndtl hrestl'
          rw [hstep, ycountR, List.countP_cons, kcount, List.countP_cons]
          by_cases hc : guess j - 97 = idx
          · have hp1 : (decide (yellowPass answ guess js h' res' j = Color.YELLOW ∧ guess j - 97 = idx)) = true := by
              simp [houtj, hc]
            have hp2 : (decide (guess j - 97 = idx ∧ ¬answ j = guess j)) = true := by
              simp [hc, hm]
            rw [hp1, hp2]
            have hupd : h' idx = h idx - 1 := by
              rw [hh', ← hc]; exact upd_same _ _ _
            have hposidx : h idx > 0 := hc ▸ hpos
            have hk0 : (0 : ℤ) ≤ (kcount answ guess idx js : ℤ) := Int.ofNat_nonneg _
            rw [ycountR, kcount] at IH
            norm_num at IH ⊢
            omega
          · have hp1 : (decide (yellowPass answ guess js h' res' j = Color.YELLOW ∧ guess j - 97 = idx)) = false := by
              simp [hc]
            have hp2 : (decide (guess j - 97 = idx ∧ ¬answ j = guess j)) = false := by
              simp [hc]
            rw [hp1, hp2]
            have hupd : h' idx = h idx := by
              rw [hh']; exact upd_ne _ _ _ _ (Ne.symm hc)
            rw [ycountR, kcount] at IH
            simpa [hupd] using IH
        · -- non-matching head with exhausted budget: head stays non-YELLOW
          have hstep : yellowPass answ guess (j :: js) h res = yellowPass answ guess js h res := by
            simp only [yellowPass, if_neg hm, if_neg hpos]
          have houtj : yellowPass answ guess js h res j = res j := ypass_stable answ guess js h res j hjnotin
          rw [hstep, ycountR, List.countP_cons, kcount, List.countP_cons]
          have hp1 : (decide (yellowPass answ guess js h res j = Color.YELLOW ∧ guess j - 97 = idx)) = false := by
            simp [houtj, hresj]
          rw [hp1]
          have IH := ih h res idx hndtl hrestl
          rw [ycountR, kcount] at IH
          by_cases hc : guess j - 97 = idx
          · have hp2 : (decide (guess j - 97 = idx ∧ ¬answ j = guess j)) = true := by
              simp [hc, hm]
            rw [hp2]
            have hz : h idx ≤ 0 := by rw [← hc]; omega
            norm_num at IH ⊢
            omega
          · have hp2 : (decide (guess j - 97 = idx ∧ ¬answ j = guess j)) = false := by
              simp [hc]
            rw [hp2]
            simpa using IH

/-- Two yellow passes agree whenever the positions' match pattern agrees and
for every histogram index the clamped budget, capped by the number of open
slots, agrees. -/
theorem ypass_congr (w a g : Word) :
    ∀ (js : List (Fin 5)) (hW hA : Histogram) (res : Fin 5 → Color),
      (∀ j ∈ js, (w j = g j ↔ a j = g j)) →
      (∀ idx : Nat, min (max 0 (hW idx)) ((kcount w g idx js : ℤ)) =
          min (max 0 (hA idx)) ((kcount w g idx js : ℤ))) →
      yellowPass w g js hW res = yellowPass a g js hA res := by
  intro js
  induction js with
  | nil => intro hW hA res _ _; rfl
  | cons j js ih =>
      intro hW hA res hiff hbud
      have hiffj : w j = g j ↔ a j = g j := hiff j (List.mem_cons_self j js)
      have hifftl : ∀ k ∈ js, (w k = g k ↔ a k = g k) :=
        fun k hk => hiff k (List.mem_cons_of_mem j hk)
      by_cases hm : w j = g j
      · have ham : a j = g j := hiffj.mp hm
        have hkeq : ∀ idx, kcount w g idx (j :: js) = kcount w g idx js := by
          intro idx
          rw [kcount, List.countP_cons]
          simp [hm, kcount]
        simp only [yellowPass, if_pos hm, if_pos ham]
        apply ih hW hA res hifftl
        intro idx
        have hb := hbud idx
        rw [hkeq idx] at hb
        exact hb
      · have ham : ¬a j = g j := fun hcon => hm (hiffj.mpr hcon)
        have hkcons : ∀ idx, kcount w g idx (j :: js) =
            kcount w g idx js + (if g j - 97 = idx then 1 else 0) := by
          intro idx
          rw [kcount, List.countP_cons]
          by_cases hc : g j - 97 = idx
          · simp [hc, hm, kcount]
          · simp [hc, kcount]
        have hbc := hbud (g j - 97)
        rw [hkcons (g j - 97)] at hbc
        simp only [if_pos rfl] at hbc
        have hiffpos : hW (g j - 97) > 0 ↔ hA (g j - 97) > 0 := by
          push_cast at hbc
          constructor <;> intro hp <;> omega
        by_cases hWp : hW (g j - 97) > 0
        · have hAp : hA (g j - 97) > 0 := hiffpos.mp hWp
          simp only [yellowPass, if_neg hm, if_neg ham, if_pos hWp, if_pos hAp]
          apply ih _ _ _ hifftl
          intro idx
          by_cases hc : g j - 97 = idx
          · subst hc
            rw [upd_same, upd_same]
            push_cast at hbc ⊢
            omega
          · rw [upd_ne _ _ _ _ (Ne.symm hc), upd_ne _ _ _ _ (Ne.symm hc)]
            have hb := hbud idx
            rw [hkcons idx] at hb
            simp only [if_neg hc, Nat.add_zero] at hb
            exact hb
        · have hAp : ¬hA (g j - 97) > 0 := fun hcon => hWp (hiffpos.mpr hcon)
          simp only [yellowPass, if_neg hm, if_neg ham, if_neg hWp, if_neg hAp]
          apply ih _ _ _ hifftl
          intro idx
          by_cases hc : g j - 97 = idx
          · subst hc
            omega
          · have hb := hbud idx
            rw [hkcons idx] at hb
            simp only [if_neg hc, Nat.add_zero] at hb
            exact hb


/-- Counting a disjunction of two pointwise-disjoint predicates. -/
theorem countP_disj {α : Type} (p q pq : α → Bool)
    (hpq : ∀ x, pq x = (p x || q x)) (hdisj : ∀ x, ¬(p x = true ∧ q x = true)) :
    ∀ l : List α, l.countP pq = l.countP p + l.countP q := by
  intro l
  induction l with
  | nil => simp
  | cons x l ih =>
      rw [List.countP_cons, List.countP_cons, List.countP_cons, ih, hpq x]
      rcases hp : p x <;> rcases hq : q x <;> simp_all <;> omega

/-- The green pass of `score` subtracts, at each index, the number of green
matches with that letter index. -/
theorem greenHist_char (answ guess : Word) :
    ∀ (js : List (Fin 5)) (h : Histogram) (idx : Nat),
      greenHist answ guess js h idx = h idx - gcount answ guess idx js := by
  intro js
  induction js with
  | nil =>
      intro h idx
      simp [greenHist, gcount]
  | cons j js ih =>
      intro h idx
      by_cases hm : answ j = guess j
      · have hstep : greenHist answ guess (j :: js) h =
            greenHist answ guess js (upd h (answ j - 97) (h (answ j - 97) - 1)) := by
          simp only [greenHist, if_pos hm]
        rw [hstep, ih]
        simp only [gcount]
        rw [List.countP_cons]
        by_cases hc : answ j - 97 = idx
        · have hp : (decide (answ j = guess j ∧ answ j - 97 = idx)) = true := by
            rw [decide_eq_true_eq]; exact ⟨hm, hc⟩
          rw [hp]
          have hv : upd h (answ j - 97) (h (answ j - 97) - 1) idx = h idx - 1 := by
            rw [← hc]; exact upd_same _ _ _
          rw [hv]
          norm_num
          ring
        · have hp : (decide (answ j = guess j ∧ answ j - 97 = idx)) = false := by
            simp [hc]
          rw [hp]
          have hv : upd h (answ j - 97) (h (answ j - 97) - 1) idx = h idx :=
            upd_ne _ _ _ _ (Ne.symm hc)
          rw [hv]
          norm_num
      · have hstep : greenHist answ guess (j :: js) h = greenHist answ guess js h := by
          simp only [greenHist, if_neg hm]
        rw [hstep, ih]
        simp only [gcount]
        rw [List.countP_cons]
        have hp : (decide (answ j = guess j ∧ answ j - 97 = idx)) = false := by
          simp [hm]
        rw [hp]
        norm_num

/-- Pass 1 of `eligible` can only complete when every GREEN position matches. -/
theorem elig1_green (word guess : Word) (result : Fin 5 → Color) :
    ∀ (js : List (Fin 5)) (h h' : Histogram),
      elig1 word guess result js h = some h' →
      ∀ j ∈ js, result j = Color.GREEN → word j = guess j := by
  intro js
  induction js with
  | nil => intro h h' _ j hj; exact absurd hj (List.not_mem_nil j)
  | cons j js ih =>
      intro h h' hsome k hk hgreen
      rcases List.mem_cons.mp hk with hkj | hktl
      · subst hkj
        rcases hr : result k with _ | _ | _ <;> rw [elig1, hr] at hsome
        · exact absurd hgreen (by rw [hr]; intro hcon; exact Color.noConfusion hcon)
        · exact absurd hgreen (by rw [hr]; intro hcon; exact Color.noConfusion hcon)
        · by_cases hm : word k = guess k
          · exact hm
          · rw [if_neg hm] at hsome; exact Option.noConfusion hsome
      · rcases hr : result j with _ | _ | _ <;> rw [elig1, hr] at hsome
        · exact ih _ _ hsome k hktl hgreen
        · exact ih _ _ hsome k hktl hgreen
        · by_cases hm : word j = guess j
          · rw [if_pos hm] at hsome
            exact ih _ _ hsome k hktl hgreen
          · rw [if_neg hm] at hsome; exact Option.noConfusion hsome

/-- When every GREEN position matches, pass 1 of `eligible` completes and
subtracts, at each index, the number of GREEN-or-YELLOW positions with that
guess-letter index. -/
theorem elig1_val (word guess : Word) (result : Fin 5 → Color) :
    ∀ (js : List (Fin 5)) (h : Histogram),
      (∀ j ∈ js, result j = Color.GREEN → word j = guess j) →
      elig1 word guess result js h =
        some (fun idx => h idx - gycount result guess idx js) := by
  intro js
  induction js with
  | nil =>
      intro h _
      simp [elig1, gycount]
  | cons j js ih =>
      intro h hgreen
      have hgtl : ∀ k ∈ js, result k = Color.GREEN → word k = guess k :=
        fun k hk => hgreen k (List.mem_cons_of_mem j hk)
      have hkey : ∀ idx, gycount result guess idx (j :: js) =
          gycount result guess idx js +
            (if (result j = Color.GREEN ∨ result j = Color.YELLOW) ∧ guess j - 97 = idx
              then 1 else 0) := by
        intro idx
        rw [gycount, List.countP_cons, gycount]
        by_cases hp : (result j = Color.GREEN ∨ result j = Color.YELLOW) ∧ guess j - 97 = idx
        · simp [hp]
        · simp [hp]
      rcases hr : result j with _ | _ | _
      · -- GREY: histogram unchanged
        rw [elig1, hr]
        show elig1 word guess result js h = _
        rw [ih h hgtl]
        congr 1
        funext idx
        rw [hkey idx]
        have : ¬((result j = Color.GREEN ∨ result j = Color.YELLOW) ∧ guess j - 97 = idx) := by
          rw [hr]; rintro ⟨hcon | hcon, -⟩ <;> exact Color.noConfusion hcon
        rw [if_neg this]
        push_cast
        ring
      · -- YELLOW: decrement at the guess letter
        rw [elig1, hr]
        show elig1 word guess result js (upd h (guess j - 97) (h (guess j - 97) - 1)) = _
        rw [ih _ hgtl]
        congr 1
        funext idx
        rw [hkey idx]
        by_cases hc : guess j - 97 = idx
        · have hcnd : (result j = Color.GREEN ∨ result j = Color.YELLOW) ∧ guess j - 97 = idx := by
            rw [hr]; exact ⟨Or.inr rfl, hc⟩
          rw [if_pos hcnd]
          have hv : upd h (guess j - 97) (h (guess j - 97) - 1) idx = h idx - 1 := by
            rw [← hc]; exact upd_same _ _ _
          rw [hv]
          push_cast
          ring
        · have hcnd : ¬((result j = Color.GREEN ∨ result j = Color.YELLOW) ∧ guess j - 97 = idx) := by
            rintro ⟨-, hcon⟩; exact hc hcon
          rw [if_neg hcnd]
          have hv : upd h (guess j - 97) (h (guess j - 97) - 1) idx = h idx :=
            upd_ne _ _ _ _ (Ne.symm hc)
          rw [hv]
          push_cast
          ring
      · -- GREEN: match is forced, then decrement at the guess letter
        have hm : word j = guess j := hgreen j (List.mem_cons_self j js) hr
        rw [elig1, hr]
        show (if word j = guess j then
            elig1 word guess result js (upd h (guess j - 97) (h (guess j - 97) - 1))
          else none) = _
        rw [if_pos hm, ih _ hgtl]
        congr 1
        funext idx
        rw [hkey idx]
        by_cases hc : guess j - 97 = idx
        · have hcnd : (result j = Color.GREEN ∨ result j = Color.YELLOW) ∧ guess j - 97 = idx := by
            rw [hr]; exact ⟨Or.inl rfl, hc⟩
          rw [if_pos hcnd]
          have hv : upd h (guess j - 97) (h (guess j - 97) - 1) idx = h idx - 1 := by
            rw [← hc]; exact upd_same _ _ _
          rw [hv]
          push_cast
          ring
        · have hcnd : ¬((result j = Color.GREEN ∨ result j = Color.YELLOW) ∧ guess j - 97 = idx) := by
            rintro ⟨-, hcon⟩; exact hc hcon
          rw [if_neg hcnd]
          have hv : upd h (guess j - 97) (h (guess j - 97) - 1) idx = h idx :=
            upd_ne _ _ _ _ (Ne.symm hc)
          rw [hv]
          push_cast
          ring

/-- Pass 2 of `eligible` succeeds exactly when every position satisfies its
per-color side condition. -/
theorem elig2_iff (word guess : Word) (result : Fin 5 → Color) (h : Histogram) :
    ∀ js : List (Fin 5),
      elig2 word guess result h js = true ↔
        ∀ j ∈ js,
          (result j ≠ Color.GREEN → ¬word j = guess j) ∧
          (result j = Color.YELLOW → 0 ≤ h (guess j - 97)) ∧
          (result j = Color.GREY → h (guess j - 97) ≤ 0) := by
  intro js
  induction js with
  | nil => simp [elig2]
  | cons j js ih =>
      by_cases hg : result j = Color.GREEN
      · have hstep : elig2 word guess result h (j :: js) = elig2 word guess result h js := by
          simp only [elig2, if_pos hg]
        rw [hstep, ih]
        constructor
        · intro hall k hk
          rcases List.mem_cons.mp hk with hkj | hktl
          · subst hkj
            refine ⟨fun hcon => absurd hg hcon, fun hcon => ?_, fun hcon => ?_⟩
            · rw [hg] at hcon; exact Color.noConfusion hcon
            · rw [hg] at hcon; exact Color.noConfusion hcon
          · exact hall k hktl
        · intro hall k hk
          exact hall k (List.mem_cons_of_mem j hk)
      · by_cases hm : word j = guess j
        · have hstep : elig2 word guess result h (j :: js) = false := by
            simp only [elig2, if_neg hg, if_pos hm]
          rw [hstep]
          constructor
          · intro hcon; exact Bool.noConfusion hcon
          · intro hall
            exact absurd hm ((hall j (List.mem_cons_self j js)).1 hg)
        · by_cases hy : result j = Color.YELLOW ∧ h (guess j - 97) < 0
          · have hstep : elig2 word guess result h (j :: js) = false := by
              simp only [elig2, if_neg hg, if_neg hm, if_pos hy]
            rw [hstep]
            constructor
            · intro hcon; exact Bool.noConfusion hcon
            · intro hall
              have := (hall j (List.mem_cons_self j js)).2.1 hy.1
              omega
          · by_cases hgr : result j = Color.GREY ∧ h (guess j - 97) > 0
            · have hstep : elig2 word guess result h (j :: js) = false := by
                simp only [elig2, if_neg hg, if_neg hm, if_neg hy, if_pos hgr]
              rw [hstep]
              constructor
              · intro hcon; exact Bool.noConfusion hcon
              · intro hall
                have := (hall j (List.mem_cons_self j js)).2.2 hgr.1
                omega
            · have hstep : elig2 word guess result h (j :: js) = elig2 word guess result h js := by
                simp only [elig2, if_neg hg, if_neg hm, if_neg hy, if_neg hgr]
              rw [hstep, ih]
              constructor
              · intro hall k hk
                rcases List.mem_cons.mp hk with hkj | hktl
                · subst hkj
                  refine ⟨fun _ => hm, fun hcy => ?_, fun hcg => ?_⟩
                  · have : ¬h (guess k - 97) < 0 := fun hcon => hy ⟨hcy, hcon⟩
                    omega
                  · have : ¬h (guess k - 97) > 0 := fun hcon => hgr ⟨hcg, hcon⟩
                    omega
                · exact hall k hktl
              · intro hall k hk
                exact hall k (List.mem_cons_of_mem j hk)

/-- The initial result array contains no YELLOW. -/
theorem res0_ne_yellow (answ guess : Word) :
    ∀ j ∈ positions, res0 answ guess j ≠ Color.YELLOW := by
  intro j _
  rw [res0]
  by_cases hm : answ j = guess j
  · rw [if_pos hm]; intro hcon; exact Color.noConfusion hcon
  · rw [if_neg hm]; intro hcon; exact Color.noConfusion hcon

/-- When the match patterns agree, the post-green-pass result arrays agree. -/
theorem res0_congr (w a g : Word) (hiff : ∀ j : Fin 5, (w j = g j ↔ a j = g j)) :
    res0 w g = res0 a g := by
  funext i
  rw [res0, res0]
  by_cases hm : w i = g i
  · rw [if_pos hm, if_pos ((hiff i).mp hm)]
  · rw [if_neg hm, if_neg (fun hcon => hm ((hiff i).mpr hcon))]

/-- Open slots split into the result's YELLOW and GREY positions, and green
matches of the word coincide with the result's GREEN positions, whenever the
word's match pattern agrees with the result's GREEN pattern. -/
theorem count_bridge (w g : Word) (r : Fin 5 → Color)
    (hGw : ∀ j : Fin 5, (w j = g j ↔ r j = Color.GREEN)) (idx : Nat) :
    kcount w g idx positions =
      ycountR r g idx positions + greycount r g idx positions ∧
    gcount w g idx positions = greencount r g idx positions := by
  constructor
  · have hcongr : kcount w g idx positions =
        positions.countP
          (fun j => decide (r j = Color.YELLOW ∧ g j - 97 = idx) ||
            decide (r j = Color.GREY ∧ g j - 97 = idx)) := by
      rw [kcount]
      refine List.countP_congr ?_
      intro j _
      simp only [decide_eq_true_eq, Bool.or_eq_true]
      constructor
      · rintro ⟨hkey, hne⟩
        have hng : r j ≠ Color.GREEN := fun hcon => hne ((hGw j).mpr hcon)
        rcases hr : r j with _ | _ | _
        · exact Or.inr ⟨rfl, hkey⟩
        · exact Or.inl ⟨rfl, hkey⟩
        · exact absurd hr hng
      · rintro (⟨hy, hkey⟩ | ⟨hgr, hkey⟩)
        · refine ⟨hkey, fun hcon => ?_⟩
          rw [(hGw j).mp hcon] at hy
          exact Color.noConfusion hy
        · refine ⟨hkey, fun hcon => ?_⟩
          rw [(hGw j).mp hcon] at hgr
          exact Color.noConfusion hgr
    rw [hcongr, ycountR, greycount]
    refine countP_disj _ _ _ (fun x => rfl) ?_ positions
    rintro x ⟨hy, hgr⟩
    rw [decide_eq_true_eq] at hy hgr
    rw [hy.1] at hgr
    exact Color.noConfusion hgr.1
  · rw [gcount, greencount]
    refine List.countP_congr ?_
    intro j _
    simp only [decide_eq_true_eq]
    constructor
    · rintro ⟨hm, hkey⟩
      exact ⟨(hGw j).mp hm, by rw [← hm]; exact hkey⟩
    · rintro ⟨hg, hkey⟩
      have hm : w j = g j := (hGw j).mpr hg
      exact ⟨hm, by rw [hm]; exact hkey⟩

/-- GREEN-or-YELLOW counts split into GREEN and YELLOW counts. -/
theorem gycount_split (r : Fin 5 → Color) (g : Word) (idx : Nat) :
    gycount r g idx positions =
      greencount r g idx positions + ycountR r g idx positions := by
  have hcongr : gycount r g idx positions =
      positions.countP
        (fun j => decide (r j = Color.GREEN ∧ g j - 97 = idx) ||
          decide (r j = Color.YELLOW ∧ g j - 97 = idx)) := by
    rw [gycount]
    refine List.countP_congr ?_
    intro j _
    simp only [decide_eq_true_eq, Bool.or_eq_true]
    constructor
    · rintro ⟨hgy | hgy, hkey⟩
      · exact Or.inl ⟨hgy, hkey⟩
      · exact Or.inr ⟨hgy, hkey⟩
    · rintro (⟨hc, hkey⟩ | ⟨hc, hkey⟩)
      · exact ⟨Or.inl hc, hkey⟩
      · exact ⟨Or.inr hc, hkey⟩
  rw [hcongr, greencount, ycountR]
  refine countP_disj _ _ _ (fun x => rfl) ?_ positions
  rintro x ⟨hgn, hy⟩
  rw [decide_eq_true_eq] at hgn hy
  rw [hgn.1] at hy
  exact Color.noConfusion hy.1

/-- Slot counts only depend on the match pattern. -/
theorem kcount_congr (w a g : Word) (hiff : ∀ j : Fin 5, (w j = g j ↔ a j = g j))
    (idx : Nat) : kcount a g idx positions = kcount w g idx positions := by
  rw [kcount, kcount]
  refine List.countP_congr ?_
  intro j _
  simp only [decide_eq_true_eq]
  constructor
  · rintro ⟨hkey, hne⟩
    exact ⟨hkey, fun hcon => hne ((hiff j).mp hcon)⟩
  · rintro ⟨hkey, hne⟩
    exact ⟨hkey, fun hcon => hne ((hiff j).mpr hcon)⟩

/-- If a candidate would reproduce the target feedback, the filter keeps it. -/
theorem eligible_of_score_eq (w a g : Word) (heq : score w g = score a g) :
    eligible w (histo w) g (score a g) = true := by
  have hGw : ∀ j : Fin 5, (w j = g j ↔ score a g j = Color.GREEN) := by
    intro j
    constructor
    · intro hm
      rw [← heq]
      exact (score_green_iff w g j).mpr hm
    · intro hg
      refine (score_green_iff w g j).mp ?_
      rw [heq]
      exact hg
  have hgm : ∀ j ∈ positions, score a g j = Color.GREEN → w j = g j :=
    fun j _ hj => (hGw j).mpr hj
  have h1 := elig1_val w g (score a g) positions (histo w) hgm
  rw [eligible, h1]
  show elig2 w g (score a g)
      (fun idx => histo w idx - (gycount (score a g) g idx positions : ℤ)) positions = true
  rw [elig2_iff]
  intro j _
  refine ⟨fun hng hcon => hng ((hGw j).mp hcon), fun hy => ?_, fun hgr => ?_⟩
  · -- YELLOW position: remaining count must be non-negative
    have hYpos : 0 < ycountR (score a g) g (g j - 97) positions := by
      rw [ycountR]
      refine List.countP_pos_iff.mpr ⟨j, mem_positions j, ?_⟩
      simp [hy]
    have hbr := count_bridge w g (score a g) hGw (g j - 97)
    have hyW := yellow_count w g positions (greenHist w g positions (histo w))
      (res0 w g) (g j - 97) positions_nodup (res0_ne_yellow w g)
    have hsw : yellowPass w g positions (greenHist w g positions (histo w)) (res0 w g) =
        score a g := by
      rw [← heq]; rfl
    rw [hsw] at hyW
    have hgh := greenHist_char w g positions (histo w) (g j - 97)
    rw [hgh, hbr.2] at hyW
    have hsplit := gycount_split (score a g) g (g j - 97)
    have hKsplit := hbr.1
    show 0 ≤ histo w (g j - 97) - (gycount (score a g) g (g j - 97) positions : ℤ)
    omega
  · -- GREY position: remaining count must be non-positive
    have hEpos : 0 < greycount (score a g) g (g j - 97) positions := by
      rw [greycount]
      refine List.countP_pos_iff.mpr ⟨j, mem_positions j, ?_⟩
      simp [hgr]
    have hbr := count_bridge w g (score a g) hGw (g j - 97)
    have hyW := yellow_count w g positions (greenHist w g positions (histo w))
      (res0 w g) (g j - 97) positions_nodup (res0_ne_yellow w g)
    have hsw : yellowPass w g positions (greenHist w g positions (histo w)) (res0 w g) =
        score a g := by
      rw [← heq]; rfl
    rw [hsw] at hyW
    have hgh := greenHist_char w g positions (histo w) (g j - 97)
    rw [hgh, hbr.2] at hyW
    have hsplit := gycount_split (score a g) g (g j - 97)
    have hKsplit := hbr.1
    show histo w (g j - 97) - (gycount (score a g) g (g j - 97) positions : ℤ) ≤ 0
    omega

/-- If the filter keeps a candidate against a feedback that was produced by
scoring some answer, the candidate reproduces that feedback exactly. -/
theorem score_eq_of_eligible (w a g : Word)
    (he : eligible w (histo w) g (score a g) = true) :
    score w g = score a g := by
  rcases h1 : elig1 w g (score a g) positions (histo w) with _ | h₁
  · rw [eligible, h1] at he
    have hfalse : false = true := he
    exact Bool.noConfusion hfalse
  · rw [eligible, h1] at he
    have he2 : elig2 w g (score a g) h₁ positions = true := he
    have hgm : ∀ j ∈ positions, score a g j = Color.GREEN → w j = g j :=
      elig1_green w g (score a g) positions (histo w) h₁ h1
    have hval := elig1_val w g (score a g) positions (histo w) hgm
    rw [h1] at hval
    have hh₁ : h₁ = fun idx => histo w idx - (gycount (score a g) g idx positions : ℤ) :=
      Option.some.inj hval
    have hcond := (elig2_iff w g (score a g) h₁ positions).mp he2
    have hGw : ∀ j : Fin 5, (w j = g j ↔ score a g j = Color.GREEN) := by
      intro j
      constructor
      · intro hm
        by_contra hng
        exact ((hcond j (mem_positions j)).1 hng) hm
      · intro hg
        exact hgm j (mem_positions j) hg
    have hGa : ∀ j : Fin 5, (a j = g j ↔ score a g j = Color.GREEN) :=
      fun j => (score_green_iff a g j).symm
    have hiff : ∀ j : Fin 5, (w j = g j ↔ a j = g j) :=
      fun j => (hGw j).trans (hGa j).symm
    have hres : res0 w g = res0 a g := res0_congr w a g hiff
    show yellowPass w g positions (greenHist w g positions (histo w)) (res0 w g) = score a g
    rw [hres]
    have hcongr : yellowPass w g positions (greenHist w g positions (histo w)) (res0 a g) =
        yellowPass a g positions (greenHist a g positions (histo a)) (res0 a g) := by
      apply ypass_congr w a g positions _ _ _ (fun j _ => hiff j)
      intro idx
      have hghW := greenHist_char w g positions (histo w) idx
      have hghA := greenHist_char a g positions (histo a) idx
      have hbrW := count_bridge w g (score a g) hGw idx
      have hbrA := count_bridge a g (score a g) hGa idx
      have hkc := kcount_congr w a g hiff idx
      have hyA := yellow_count a g positions (greenHist a g positions (histo a))
        (res0 a g) idx positions_nodup (res0_ne_yellow a g)
      have hsa : yellowPass a g positions (greenHist a g positions (histo a)) (res0 a g) =
          score a g := rfl
      rw [hsa] at hyA
      have hsplit := gycount_split (score a g) g idx
      have hYcond : 0 < ycountR (score a g) g idx positions →
          0 ≤ histo w idx - (gycount (score a g) g idx positions : ℤ) := by
        intro hpos
        rw [ycountR] at hpos
        rcases List.countP_pos_iff.mp hpos with ⟨j, hjmem, hj⟩
        rw [decide_eq_true_eq] at hj
        have hle := (hcond j hjmem).2.1 hj.1
        rw [hh₁] at hle
        have hle2 : 0 ≤ histo w (g j - 97) -
            (gycount (score a g) g (g j - 97) positions : ℤ) := hle
        rw [hj.2] at hle2
        exact hle2
      have hEcond : 0 < greycount (score a g) g idx positions →
          histo w idx - (gycount (score a g) g idx positions : ℤ) ≤ 0 := by
        intro hpos
        rw [greycount] at hpos
        rcases List.countP_pos_iff.mp hpos with ⟨j, hjmem, hj⟩
        rw [decide_eq_true_eq] at hj
        have hle := (hcond j hjmem).2.2 hj.1
        rw [hh₁] at hle
        have hle2 : histo w (g j - 97) -
            (gycount (score a g) g (g j - 97) positions : ℤ) ≤ 0 := hle
        rw [hj.2] at hle2
        exact hle2
      rw [hghW, hghA, hbrW.2, hbrA.2]
      rw [hghA, hbrA.2, hkc] at hyA
      omega
    rw [hcongr]
    rfl

/-- With per-word recomputed histograms, pruning is a filter by `eligible`. -/
theorem prune_map_histo (guess : Word) (result : Fin 5 → Color) :
    ∀ answers : List Word,
      prune answers (answers.map (fun a => histo a)) guess result =
        answers.filter (fun a => eligible a (histo a) guess result) := by
  intro answers
  rw [prune]
  induction answers with
  | nil => rfl
  | cons x l ih =>
      rw [List.map_cons, List.zip_cons_cons, List.filterMap_cons, List.filter_cons]
      by_cases hel : eligible x (histo x) guess result = true
      · rw [if_pos hel]
        simp only [hel, if_true]
        rw [ih]
      · have hel' : eligible x (histo x) guess result = false :=
          Bool.eq_false_iff.mpr hel
        rw [hel']
        simp only [if_neg hel, Bool.false_eq_true, if_false]
        rw [ih]

/-- `pruneE` is that filter. -/
theorem pruneE_eq_filter (answers : List Word) (guess : Word) (result : Fin 5 → Color) :
    pruneE answers guess result =
      answers.filter (fun a => eligible a (histo a) guess result) := by
  rw [pruneE]
  exact prune_map_histo guess result answers

/-- A candidate always survives pruning by its own feedback. -/
theorem mem_pruneE_self (answers : List Word) (guess answer : Word)
    (hmem : answer ∈ answers) :
    answer ∈ pruneE answers guess (score answer guess) := by
  rw [pruneE_eq_filter]
  refine List.mem_filter.mpr ⟨hmem, ?_⟩
  exact eligible_of_score_eq answer answer guess rfl

/-- Two successive eager prunings commute. -/
theorem pruneE_comm (answers : List Word) (g1 g2 : Word)
    (r1 r2 : Fin 5 → Color) :
    pruneE (pruneE answers g1 r1) g2 r2 = pruneE (pruneE answers g2 r2) g1 r1 := by
  rw [pruneE_eq_filter, pruneE_eq_filter, pruneE_eq_filter, pruneE_eq_filter]
  rw [List.filter_filter, List.filter_filter]
  refine List.filter_congr ?_
  intro x _
  rw [Bool.and_comm]

/-- The selection fold keeps its accumulator when nothing improves on it;
otherwise it returns the first entry attaining the minimum adjusted score. -/
theorem selectFold (f : Nat × Word → Nat) :
    ∀ (l : List (Nat × Word)) (acc : Option Word × Nat),
      (List.foldl (fun best sg => if f sg < best.2 then (some sg.2, f sg) else best) acc l = acc
        ∧ ∀ x ∈ l, acc.2 ≤ f x)
      ∨ (∃ i : Fin l.length,
          List.foldl (fun best sg => if f sg < best.2 then (some sg.2, f sg) else best) acc l
            = (some (l.get i).2, f (l.get i))
          ∧ f (l.get i) < acc.2
          ∧ (∀ x ∈ l, f (l.get i) ≤ f x)
          ∧ ∀ j : Fin l.length, j.val < i.val → f (l.get i) < f (l.get j)) := by
  intro l
  induction l with
  | nil =>
      intro acc
      left
      exact ⟨rfl, fun x hx => absurd hx (List.not_mem_nil x)⟩
  | cons x l ih =>
      intro acc
      rw [List.foldl_cons]
      by_cases hx : f x < acc.2
      · rw [if_pos hx]
        rcases ih (some x.2, f x) with ⟨heq, hge⟩ | ⟨i, heq, hlt, hmin, hearly⟩
        · right
          refine ⟨⟨0, Nat.succ_pos _⟩, heq, hx, ?_, ?_⟩
          · intro y hy
            rcases List.mem_cons.mp hy with hyx | hyl
            · subst hyx; exact le_refl _
            · exact hge y hyl
          · intro j hj
            exact absurd hj (Nat.not_lt_zero _)
        · right
          have hilt : i.val + 1 < (x :: l).length := Nat.succ_lt_succ i.isLt
          refine ⟨⟨i.val + 1, hilt⟩, heq, lt_trans hlt hx, ?_, ?_⟩
          · intro y hy
            show f (l.get i) ≤ f y
            rcases List.mem_cons.mp hy with hyx | hyl
            · subst hyx
              exact le_of_lt hlt
            · exact hmin y hyl
          · intro j hj
            rcases j with ⟨jv, hjlt⟩
            rcases jv with _ | jv
            · show f (l.get i) < f x
              exact hlt
            · have hjlt2 : jv + 1 < l.length + 1 := hjlt
              have hj2 : jv + 1 < i.val + 1 := hj
              have hjv : jv < l.length := Nat.lt_of_succ_lt_succ hjlt2
              have hji : jv < i.val := Nat.lt_of_succ_lt_succ hj2
              show f (l.get i) < f (l.get ⟨jv, hjv⟩)
              exact hearly ⟨jv, hjv⟩ hji
      · rw [if_neg hx]
        rcases ih acc with ⟨heq, hge⟩ | ⟨i, heq, hlt, hmin, hearly⟩
        · left
          refine ⟨heq, fun y hy => ?_⟩
          rcases List.mem_cons.mp hy with hyx | hyl
          · subst hyx; omega
          · exact hge y hyl
        · right
          have hilt : i.val + 1 < (x :: l).length := Nat.succ_lt_succ i.isLt
          refine ⟨⟨i.val + 1, hilt⟩, heq, hlt, ?_, ?_⟩
          · intro y hy
            show f (l.get i) ≤ f y
            rcases List.mem_cons.mp hy with hyx | hyl
            · subst hyx
              have hlt2 := hlt
              omega
            · exact hmin y hyl
          · intro j hj
            rcases j with ⟨jv, hjlt⟩
            rcases jv with _ | jv
            · show f (l.get i) < f x
              have hlt2 := hlt
              omega
            · have hjlt2 : jv + 1 < l.length + 1 := hjlt
              have hj2 : jv + 1 < i.val + 1 := hj
              have hjv : jv < l.length := Nat.lt_of_succ_lt_succ hjlt2
              have hji : jv < i.val := Nat.lt_of_succ_lt_succ hj2
              show f (l.get i) < f (l.get ⟨jv, hjv⟩)
              exact hearly ⟨jv, hjv⟩ hji

/-- With a non-empty list whose adjusted scores all beat `usize::MAX`, the
selection returns the first entry attaining the minimum adjusted score. -/
theorem selectBest_spec (f : Nat × Word → Nat) (l : List (Nat × Word))
    (hne : l ≠ []) (hall : ∀ x ∈ l, f x < USIZE_MAX) :
    ∃ i : Fin l.length,
      selectBest f l = (some (l.get i).2, f (l.get i))
      ∧ (∀ x ∈ l, f (l.get i) ≤ f x)
      ∧ ∀ j : Fin l.length, j.val < i.val → f (l.get i) < f (l.get j) := by
  rcases selectFold f l (none, USIZE_MAX) with ⟨heq, hge⟩ | ⟨i, heq, hlt, hmin, hearly⟩
  · exfalso
    rcases List.exists_mem_of_ne_nil l hne with ⟨x, hx⟩
    have h1 := hge x hx
    have h2 := hall x hx
    simp only at h1
    omega
  · exact ⟨i, heq, hmin, hearly⟩

/-- A `max` fold dominates its seed and every element, and equals one of them. -/
theorem foldl_max_spec (v : Word → Nat) :
    ∀ (l : List Word) (acc : Nat),
      acc ≤ List.foldl (fun s x => max s (v x)) acc l ∧
      (∀ x ∈ l, v x ≤ List.foldl (fun s x => max s (v x)) acc l) ∧
      (List.foldl (fun s x => max s (v x)) acc l = acc ∨
        ∃ x ∈ l, List.foldl (fun s x => max s (v x)) acc l = v x) := by
  intro l
  induction l with
  | nil =>
      intro acc
      refine ⟨le_refl _, ?_, Or.inl rfl⟩
      intro x hx
      exact absurd hx (List.not_mem_nil x)
  | cons x l ih =>
      intro acc
      rw [List.foldl_cons]
      rcases ih (max acc (v x)) with ⟨h1, h2, h3⟩
      refine ⟨le_trans (Nat.le_max_left _ _) h1, ?_, ?_⟩
      · intro y hy
        rcases List.mem_cons.mp hy with hyx | hyl
        · subst hyx
          exact le_trans (Nat.le_max_right _ _) h1
        · exact h2 y hyl
      · rcases h3 with h3 | ⟨y, hy, h3⟩
        · rcases max_choice acc (v x) with hmx | hmx
          · left; rw [h3, hmx]
          · right; exact ⟨x, List.mem_cons_self x l, by rw [h3, hmx]⟩
        · right; exact ⟨y, List.mem_cons_of_mem x hy, h3⟩

/-- Pruning never yields more candidates than it was given. -/
theorem prune_length_le (answers : List Word) (histos : List Histogram)
    (guess : Word) (result : Fin 5 → Color) :
    (prune answers histos guess result).length ≤ answers.length := by
  rw [prune]
  refine le_trans (List.length_filterMap_le _ _) ?_
  rw [List.length_zip]
  exact Nat.min_le_left _ _

/-- The worst-case score is bounded by the number of candidates. -/
theorem worstScore_le (answers : List Word) (histos : List Histogram) (guess : Word) :
    worstScore answers histos guess ≤ answers.length := by
  rw [worstScore]
  rcases (foldl_max_spec
      (fun answ => (prune answers histos guess (score answ guess)).length) answers 0).2.2
    with h | ⟨x, _, h⟩
  · rw [h]; exact Nat.zero_le _
  · rw [h]; exact prune_length_le _ _ _ _

/-- Every remaining answer's pruned count is at most the worst-case score. -/
theorem worstScore_ge (answers : List Word) (histos : List Histogram) (guess : Word)
    (answ : Word) (hmem : answ ∈ answers) :
    (prune answers histos guess (score answ guess)).length ≤
      worstScore answers histos guess := by
  rw [worstScore]
  exact (foldl_max_spec
    (fun a => (prune answers histos guess (score a guess)).length) answers 0).2.1 answ hmem

/-- The worst-case score is attained by zero or by some remaining answer. -/
theorem worstScore_attained (answers : List Word) (histos : List Histogram) (guess : Word) :
    worstScore answers histos guess = 0 ∨
      ∃ answ ∈ answers, worstScore answers histos guess =
        (prune answers histos guess (score answ guess)).length := by
  rw [worstScore]
  rcases (foldl_max_spec
      (fun a => (prune answers histos guess (score a guess)).length) answers 0).2.2
    with h | ⟨x, hx, h⟩
  · exact Or.inl h
  · exact Or.inr ⟨x, hx, h⟩

/-- With at least one candidate and recomputed histograms, every guess has a
positive worst-case score: a candidate always survives its own feedback. -/
theorem worstScore_pos (answers : List Word) (guess : Word) (hne : answers ≠ []) :
    1 ≤ worstScore answers (answers.map (fun a => histo a)) guess := by
  rcases List.exists_mem_of_ne_nil answers hne with ⟨answ, hmem⟩
  have hsur : answ ∈ prune answers (answers.map (fun a => histo a)) guess
      (score answ guess) := mem_pruneE_self answers guess answ hmem
  have hlen : 1 ≤ (prune answers (answers.map (fun a => histo a)) guess
      (score answ guess)).length := List.length_pos.mpr (List.ne_nil_of_mem hsur)
  exact le_trans hlen (worstScore_ge _ _ _ _ hmem)

/-- Entries of the scored list built by `best_guess`. -/
theorem scored_get (answers guesses : List Word) (k : Nat)
    (hk : k < (guesses.map
      (fun g => (worstScore answers (answers.map (fun a => histo a)) g, g))).length)
    (hk2 : k < guesses.length) :
    (guesses.map
        (fun g => (worstScore answers (answers.map (fun a => histo a)) g, g))).get ⟨k, hk⟩ =
      (worstScore answers (answers.map (fun a => histo a)) (guesses.get ⟨k, hk2⟩),
        guesses.get ⟨k, hk2⟩) := by
  rw [List.get_eq_getElem, List.getElem_map, List.get_eq_getElem]

/-- The single-board selector picks the first guess minimizing the adjusted
(doubled, membership-discounted) worst-case score. -/
theorem wordleBG_main (answers guesses : List Word)
    (hne_g : guesses ≠ []) (hsmall : 2 * answers.length < USIZE_MAX) :
    ∃ (i : Nat) (hi : i < guesses.length),
      wordleBestGuess answers guesses =
        (some (guesses.get ⟨i, hi⟩),
          wordleScaled answers
            (worstScore answers (answers.map (fun a => histo a)) (guesses.get ⟨i, hi⟩),
              guesses.get ⟨i, hi⟩)) ∧
      (∀ g ∈ guesses,
        wordleScaled answers
            (worstScore answers (answers.map (fun a => histo a)) (guesses.get ⟨i, hi⟩),
              guesses.get ⟨i, hi⟩) ≤
          wordleScaled answers (worstScore answers (answers.map (fun a => histo a)) g, g)) ∧
      (∀ (j : Nat) (hj : j < guesses.length), j < i →
        wordleScaled answers
            (worstScore answers (answers.map (fun a => histo a)) (guesses.get ⟨i, hi⟩),
              guesses.get ⟨i, hi⟩) <
          wordleScaled answers
            (worstScore answers (answers.map (fun a => histo a)) (guesses.get ⟨j, hj⟩),
              guesses.get ⟨j, hj⟩)) := by
  have hne_s : guesses.map
      (fun g => (worstScore answers (answers.map (fun a => histo a)) g, g)) ≠ [] := by
    intro hcon
    exact hne_g (List.map_eq_nil_iff.mp hcon)
  have hall : ∀ x ∈ guesses.map
      (fun g => (worstScore answers (answers.map (fun a => histo a)) g, g)),
      wordleScaled answers x < USIZE_MAX := by
    intro x hx
    rcases List.mem_map.mp hx with ⟨g, _, rfl⟩
    have hws := worstScore_le answers (answers.map (fun a => histo a)) g
    rw [wordleScaled]
    by_cases hmem : g ∈ answers
    · rw [if_pos hmem]
      omega
    · rw [if_neg hmem]
      omega
  rcases selectBest_spec (wordleScaled answers) _ hne_s hall with ⟨i, heq, hmin, hearly⟩
  have hlen : (guesses.map
      (fun g => (worstScore answers (answers.map (fun a => histo a)) g, g))).length =
      guesses.length := List.length_map _ _
  have hi : i.val < guesses.length := by rw [← hlen]; exact i.isLt
  have hgeti := scored_get answers guesses i.val i.isLt hi
  refine ⟨i.val, hi, ?_, ?_, ?_⟩
  · show selectBest (wordleScaled answers) _ = _
    rw [heq]
    rw [show ((guesses.map
        (fun g => (worstScore answers (answers.map (fun a => histo a)) g, g))).get i) =
        (guesses.map
          (fun g => (worstScore answers (answers.map (fun a => histo a)) g, g))).get
            ⟨i.val, i.isLt⟩ from rfl, hgeti]
  · intro g hg
    have hx : (worstScore answers (answers.map (fun a => histo a)) g, g) ∈
        guesses.map (fun g => (worstScore answers (answers.map (fun a => histo a)) g, g)) :=
      List.mem_map.mpr ⟨g, hg, rfl⟩
    have := hmin _ hx
    rw [show ((guesses.map
        (fun g => (worstScore answers (answers.map (fun a => histo a)) g, g))).get i) =
        (guesses.map
          (fun g => (worstScore answers (answers.map (fun a => histo a)) g, g))).get
            ⟨i.val, i.isLt⟩ from rfl, hgeti] at this
    exact this
  · intro j hj hlt
    have hjs : j < (guesses.map
        (fun g => (worstScore answers (answers.map (fun a => histo a)) g, g))).length := by
      rw [hlen]; exact hj
    have := hearly ⟨j, hjs⟩ hlt
    rw [show ((guesses.map
        (fun g => (worstScore answers (answers.map (fun a => histo a)) g, g))).get i) =
        (guesses.map
          (fun g => (worstScore answers (answers.map (fun a => histo a)) g, g))).get
            ⟨i.val, i.isLt⟩ from rfl, hgeti,
      scored_get answers guesses j hjs hj] at this
    exact this

/-- Each hypothetical answer's combined count is at most the worst case. -/
theorem dordleWorst_ge (answersLeft answersRight : List Word)
    (histosLeft histosRight : List Histogram) (total : List Word) (guess : Word)
    (answ : Word) (hmem : answ ∈ total) :
    (prune answersLeft histosLeft guess (score answ guess)).length +
      (prune answersRight histosRight guess (score answ guess)).length ≤
      dordleWorstScore answersLeft answersRight histosLeft histosRight total guess := by
  rw [dordleWorstScore]
  exact (foldl_max_spec
    (fun a => (prune answersLeft histosLeft guess (score a guess)).length +
      (prune answersRight histosRight guess (score a guess)).length) total 0).2.1 answ hmem

/-- The two-board worst case is attained by zero or by some word of the union. -/
theorem dordleWorst_attained (answersLeft answersRight : List Word)
    (histosLeft histosRight : List Histogram) (total : List Word) (guess : Word) :
    dordleWorstScore answersLeft answersRight histosLeft histosRight total guess = 0 ∨
      ∃ answ ∈ total,
        dordleWorstScore answersLeft answersRight histosLeft histosRight total guess =
          (prune answersLeft histosLeft guess (score answ guess)).length +
            (prune answersRight histosRight guess (score answ guess)).length := by
  rw [dordleWorstScore]
  rcases (foldl_max_spec
      (fun a => (prune answersLeft histosLeft guess (score a guess)).length +
        (prune answersRight histosRight guess (score a guess)).length) total 0).2.2
    with h | ⟨x, hx, h⟩
  · exact Or.inl h
  · exact Or.inr ⟨x, hx, h⟩

/-- The two-board worst case is bounded by the boards' total size. -/
theorem dordleWorst_le (answersLeft answersRight : List Word)
    (histosLeft histosRight : List Histogram) (total : List Word) (guess : Word) :
    dordleWorstScore answersLeft answersRight histosLeft histosRight total guess ≤
      answersLeft.length + answersRight.length := by
  rcases dordleWorst_attained answersLeft answersRight histosLeft histosRight total guess
    with h | ⟨answ, _, h⟩
  · rw [h]; exact Nat.zero_le _
  · rw [h]
    exact Nat.add_le_add (prune_length_le _ _ _ _) (prune_length_le _ _ _ _)

/-- Entries of the scored list built by the two-board `best_guess`. -/
theorem dscored_get (answersLeft answersRight : List Word) (guesses : List Word) (k : Nat)
    (hk : k < (guesses.map
      (fun g => (dordleWorstScore answersLeft answersRight
        (answersLeft.map (fun a => histo a)) (answersRight.map (fun a => histo a))
        (answersLeft ++ answersRight) g, g))).length)
    (hk2 : k < guesses.length) :
    (guesses.map
        (fun g => (dordleWorstScore answersLeft answersRight
          (answersLeft.map (fun a => histo a)) (answersRight.map (fun a => histo a))
          (answersLeft ++ answersRight) g, g))).get ⟨k, hk⟩ =
      (dordleWorstScore answersLeft answersRight
        (answersLeft.map (fun a => histo a)) (answersRight.map (fun a => histo a))
        (answersLeft ++ answersRight) (guesses.get ⟨k, hk2⟩),
        guesses.get ⟨k, hk2⟩) := by
  rw [List.get_eq_getElem, List.getElem_map, List.get_eq_getElem]

/-- The two-board selector picks the first guess minimizing the adjusted
(doubled, union-membership-discounted) combined worst-case score. -/
theorem dordleBG_main (answersLeft answersRight guesses : List Word)
    (hne_g : guesses ≠ [])
    (hsmall : 2 * (answersLeft.length + answersRight.length) < USIZE_MAX) :
    ∃ (i : Nat) (hi : i < guesses.length),
      dordleBestGuess answersLeft answersRight guesses =
        (some (guesses.get ⟨i, hi⟩),
          dordleScaled (answersLeft ++ answersRight)
            (dordleWorstScore answersLeft answersRight
              (answersLeft.map (fun a => histo a)) (answersRight.map (fun a => histo a))
              (answersLeft ++ answersRight) (guesses.get ⟨i, hi⟩),
              guesses.get ⟨i, hi⟩)) ∧
      (∀ g ∈ guesses,
        dordleScaled (answersLeft ++ answersRight)
            (dordleWorstScore answersLeft answersRight
              (answersLeft.map (fun a => histo a)) (answersRight.map (fun a => histo a))
              (answersLeft ++ answersRight) (guesses.get ⟨i, hi⟩),
              guesses.get ⟨i, hi⟩) ≤
          dordleScaled (answersLeft ++ answersRight)
            (dordleWorstScore answersLeft answersRight
              (answersLeft.map (fun a => histo a)) (answersRight.map (fun a => histo a))
              (answersLeft ++ answersRight) g, g)) := by
  have hne_s : guesses.map
      (fun g => (dordleWorstScore answersLeft answersRight
        (answersLeft.map (fun a => histo a)) (answersRight.map (fun a => histo a))
        (answersLeft ++ answersRight) g, g)) ≠ [] := by
    intro hcon
    exact hne_g (List.map_eq_nil_iff.mp hcon)
  have hall : ∀ x ∈ guesses.map
      (fun g => (dordleWorstScore answersLeft answersRight
        (answersLeft.map (fun a => histo a)) (answersRight.map (fun a => histo a))
        (answersLeft ++ answersRight) g, g)),
      dordleScaled (answersLeft ++ answersRight) x < USIZE_MAX := by
    intro x hx
    rcases List.mem_map.mp hx with ⟨g, _, rfl⟩
    have hws := dordleWorst_le answersLeft answersRight
      (answersLeft.map (fun a => histo a)) (answersRight.map (fun a => histo a))
      (answersLeft ++ answersRight) g
    rw [dordleScaled]
    by_cases hmem : g ∈ answersLeft ++ answersRight
    · rw [if_pos hmem]
      omega
    · rw [if_neg hmem]
      omega
  rcases selectBest_spec (dordleScaled (answersLeft ++ answersRight)) _ hne_s hall
    with ⟨i, heq, hmin, _⟩
  have hlen : (guesses.map
      (fun g => (dordleWorstScore answersLeft answersRight
        (answersLeft.map (fun a => histo a)) (answersRight.map (fun a => histo a))
        (answersLeft ++ answersRight) g, g))).length = guesses.length :=
    List.length_map _ _
  have hi : i.val < guesses.length := by rw [← hlen]; exact i.isLt
  have hgeti := dscored_get answersLeft answersRight guesses i.val i.isLt hi
  refine ⟨i.val, hi, ?_, ?_⟩
  · show selectBest (dordleScaled (answersLeft ++ answersRight)) _ = _
    rw [heq]
    rw [show ((guesses.map
        (fun g => (dordleWorstScore answersLeft answersRight
          (answersLeft.map (fun a => histo a)) (answersRight.map (fun a => histo a))
          (answersLeft ++ answersRight) g, g))).get i) =
        ((guesses.map
          (fun g => (dordleWorstScore answersLeft answersRight
            (answersLeft.map (fun a => histo a)) (answersRight.map (fun a => histo a))
            (answersLeft ++ answersRight) g, g))).get ⟨i.val, i.isLt⟩) from rfl, hgeti]
  · intro g hg
    have hx : (dordleWorstScore answersLeft answersRight
        (answersLeft.map (fun a => histo a)) (answersRight.map (fun a => histo a))
        (answersLeft ++ answersRight) g, g) ∈
        guesses.map (fun g => (dordleWorstScore answersLeft answersRight
          (answersLeft.map (fun a => histo a)) (answersRight.map (fun a => histo a))
          (answersLeft ++ answersRight) g, g)) :=
      List.mem_map.mpr ⟨g, hg, rfl⟩
    have hle := hmin _ hx
    rw [show ((guesses.map
        (fun g => (dordleWorstScore answersLeft answersRight
          (answersLeft.map (fun a => histo a)) (answersRight.map (fun a => histo a))
          (answersLeft ++ answersRight) g, g))).get i) =
        ((guesses.map
          (fun g => (dordleWorstScore answersLeft answersRight
            (answersLeft.map (fun a => histo a)) (answersRight.map (fun a => histo a))
            (answersLeft ++ answersRight) g, g))).get ⟨i.val, i.isLt⟩) from rfl, hgeti] at hle
    exact hle

/-- The histogram loop turns an entry encoding `m` occurrences seen so far
(`-1` for none, else the count) into the encoding of the final count. -/
theorem histoAux_char (w : Word) :
    ∀ (js : List (Fin 5)) (h : Histogram) (idx : Nat) (m : Nat),
      h idx = (if m = 0 then (-1 : ℤ) else (m : ℤ)) →
      histoAux w js h idx =
        (if m + js.countP (fun j => decide (w j - 97 = idx)) = 0 then (-1 : ℤ)
          else ((m + js.countP (fun j => decide (w j - 97 = idx)) : Nat) : ℤ)) := by
  intro js
  induction js with
  | nil =>
      intro h idx m hm
      simpa [histoAux] using hm
  | cons j js ih =>
      intro h idx m hm
      rw [histoAux]
      by_cases hc : w j - 97 = idx
      · have hupd : upd h (w j - 97)
            (if h (w j - 97) > 0 then h (w j - 97) + 1 else h (w j - 97) + 2) idx =
            (if m + 1 = 0 then (-1 : ℤ) else ((m + 1 : Nat) : ℤ)) := by
          rw [← hc, upd_same, hc, hm]
          by_cases hm0 : m = 0
          · subst hm0
            norm_num
          · rw [if_neg hm0]
            rw [if_neg (show ¬(m + 1 = 0) by omega)]
            rw [if_pos (show ((m : Nat) : ℤ) > 0 by exact_mod_cast Nat.pos_of_ne_zero hm0)]
            push_cast
            ring
        rw [ih _ idx (m + 1) hupd]
        have hcnt : (j :: js).countP (fun j => decide (w j - 97 = idx)) =
            js.countP (fun j => decide (w j - 97 = idx)) + 1 := by
          rw [List.countP_cons]
          simp [hc]
        rw [hcnt]
        have : m + 1 + js.countP (fun j => decide (w j - 97 = idx)) =
            m + (js.countP (fun j => decide (w j - 97 = idx)) + 1) := by omega
        rw [← this]
      · have hupd : upd h (w j - 97)
            (if h (w j - 97) > 0 then h (w j - 97) + 1 else h (w j - 97) + 2) idx =
            (if m = 0 then (-1 : ℤ) else ((m : Nat) : ℤ)) := by
          rw [upd_ne _ _ _ _ (Ne.symm hc)]
          exact hm
        rw [ih _ idx m hupd]
        have hcnt : (j :: js).countP (fun j => decide (w j - 97 = idx)) =
            js.countP (fun j => decide (w j - 97 = idx)) := by
          rw [List.countP_cons]
          simp [hc]
        rw [hcnt]

/-- For a lowercase word, the histogram entry of letter `c` encodes the number
of occurrences of `c`: `-1` when absent, the count when present. -/
theorem histo_char (w : Word) (hlow : LowercaseW w) (c : Nat) (hc1 : 97 ≤ c) :
    histo w (c - 97) =
      (if positions.countP (fun j => decide (w j = c)) = 0 then (-1 : ℤ)
        else ((positions.countP (fun j => decide (w j = c)) : Nat) : ℤ)) := by
  have h0 : (fun _ => (-1 : ℤ)) (c - 97) = (if (0 : Nat) = 0 then (-1 : ℤ) else ((0 : Nat) : ℤ)) := by
    norm_num
  have hmain := histoAux_char w positions (fun _ => -1) (c - 97) 0 h0
  rw [histo, hmain]
  have hcc : positions.countP (fun j => decide (w j - 97 = c - 97)) =
      positions.countP (fun j => decide (w j = c)) := by
    refine List.countP_congr ?_
    intro j _
    simp only [decide_eq_true_eq]
    have hj := hlow j
    constructor <;> intro h <;> omega
  rw [hcc]
  norm_num

/-- Selecting over an empty scored list keeps the initial accumulator. -/
theorem selectBest_nil (f : Nat × Word → Nat) : selectBest f [] = (none, USIZE_MAX) := rfl

/-- When the first entry's adjusted score is zero, it wins immediately and
can never be displaced. -/
theorem selectBest_zero (f : Nat × Word → Nat) (x : Nat × Word) (l : List (Nat × Word))
    (hx : f x = 0) : selectBest f (x :: l) = (some x.2, 0) := by
  have hmaxpos : 0 < USIZE_MAX := by
    rw [USIZE_MAX]
    norm_num
  rw [selectBest, List.foldl_cons, if_pos (by rw [hx]; exact hmaxpos), hx]
  rcases selectFold f l (some x.2, 0) with ⟨heq, _⟩ | ⟨i, _, hlt, _, _⟩
  · exact heq
  · exfalso
    have hneg : f (l.get i) < 0 := hlt
    exact absurd hneg (Nat.not_lt_zero _)

/-- The checked histogram fold stays defined over lowercase bytes. -/
theorem histoFold_some :
    ∀ (l : List Nat) (h : Histogram), (∀ b ∈ l, 97 ≤ b ∧ b < 123) →
      (l.foldl
        (fun acc b =>
          acc.bind (fun h =>
            (hidx b).map (fun i => upd h i (if h i > 0 then h i + 1 else h i + 2))))
        (some h)).isSome := by
  intro l
  induction l with
  | nil => intro h _; rfl
  | cons b l ih =>
      intro h hlow
      have hb := hlow b (List.mem_cons_self b l)
      have hbx : hidx b = some (b - 97) := by rw [hidx, if_pos hb]
      rw [List.foldl_cons]
      have hstep : (some h).bind (fun h =>
          (hidx b).map (fun i => upd h i (if h i > 0 then h i + 1 else h i + 2))) =
          some (upd h (b - 97)
            (if h (b - 97) > 0 then h (b - 97) + 1 else h (b - 97) + 2)) := by
        rw [Option.some_bind, hbx, Option.map_some']
      rw [hstep]
      exact ih _ (fun x hx => hlow x (List.mem_cons_of_mem b hx))

/-- The checked histogram is defined on 5-letter lowercase inputs. -/
theorem histoChecked_some (word : List Nat) (hlen : word.length = 5)
    (hlow : ∀ b ∈ word, 97 ≤ b ∧ b < 123) : (histoChecked word).isSome := by
  rw [histoChecked, if_pos hlen]
  exact histoFold_some word _ hlow

/-- The checked green pass is defined when the answer bytes are lowercase. -/
theorem scoreGreenChecked_some :
    ∀ (l : List (Nat × Nat)) (h : Histogram), (∀ p ∈ l, 97 ≤ p.1 ∧ p.1 < 123) →
      (scoreGreenChecked l h).isSome := by
  intro l
  induction l with
  | nil => intro h _; rfl
  | cons p l ih =>
      intro h hlow
      rcases p with ⟨a, g⟩
      have ha := hlow (a, g) (List.mem_cons_self _ l)
      have hax : hidx a = some (a - 97) := by rw [hidx, if_pos ha]
      rw [scoreGreenChecked]
      by_cases hm : a = g
      · rw [if_pos hm, hax, Option.some_bind]
        exact ih _ (fun x hx => hlow x (List.mem_cons_of_mem _ hx))
      · rw [if_neg hm]
        exact ih _ (fun x hx => hlow x (List.mem_cons_of_mem _ hx))

/-- The checked yellow pass is defined when the guess bytes are lowercase. -/
theorem scoreYellowChecked_some :
    ∀ (l : List (Nat × Nat)) (h : Histogram), (∀ p ∈ l, 97 ≤ p.2 ∧ p.2 < 123) →
      (scoreYellowChecked l h).isSome := by
  intro l
  induction l with
  | nil => intro h _; rfl
  | cons p l ih =>
      intro h hlow
      rcases p with ⟨a, g⟩
      have hg := hlow (a, g) (List.mem_cons_self _ l)
      have hgx : hidx g = some (g - 97) := by rw [hidx, if_pos hg]
      have htl : ∀ p ∈ l, 97 ≤ p.2 ∧ p.2 < 123 :=
        fun x hx => hlow x (List.mem_cons_of_mem _ hx)
      rw [scoreYellowChecked]
      by_cases hm : a = g
      · rw [if_pos hm]
        exact Option.isSome_map'.symm ▸  (ih h htl)
      · rw [if_neg hm, hgx, Option.some_bind]
        by_cases hpos : h (g - 97) > 0
        · rw [if_pos hpos]
          exact Option.isSome_map'.symm ▸  (ih _ htl)
        · rw [if_neg hpos]
          exact Option.isSome_map'.symm ▸  (ih h htl)

/-- The checked scorer is defined on 5-letter lowercase inputs. -/
theorem scoreChecked_some (answ guess : List Nat)
    (hla : answ.length = 5) (hlg : guess.length = 5)
    (hlowa : ∀ b ∈ answ, 97 ≤ b ∧ b < 123) (hlowg : ∀ b ∈ guess, 97 ≤ b ∧ b < 123) :
    (scoreChecked answ guess).isSome := by
  rw [scoreChecked]
  rcases Option.isSome_iff_exists.mp (histoChecked_some answ hla hlowa) with ⟨h, hh⟩
  rw [hh, Option.some_bind, if_pos ⟨hla, hlg⟩]
  have hza : ∀ p ∈ answ.zip guess, 97 ≤ p.1 ∧ p.1 < 123 := by
    intro p hp
    exact hlowa p.1 (List.of_mem_zip hp).1
  have hzg : ∀ p ∈ answ.zip guess, 97 ≤ p.2 ∧ p.2 < 123 := by
    intro p hp
    exact hlowg p.2 (List.of_mem_zip hp).2
  rcases Option.isSome_iff_exists.mp (scoreGreenChecked_some (answ.zip guess) h hza)
    with ⟨h2, hh2⟩
  rw [hh2, Option.some_bind]
  exact scoreYellowChecked_some (answ.zip guess) h2 hzg

/-- The checked filter pass 1 is defined when the guess bytes are lowercase. -/
theorem eligPass1Checked_some :
    ∀ (l : List ((Nat × Nat) × Color)) (h : Histogram),
      (∀ p ∈ l, 97 ≤ p.1.2 ∧ p.1.2 < 123) →
      (eligPass1Checked l h).isSome := by
  intro l
  induction l with
  | nil => intro h _; rfl
  | cons p l ih =>
      intro h hlow
      rcases p with ⟨⟨w, g⟩, r⟩
      have hg := hlow ((w, g), r) (List.mem_cons_self _ l)
      have hgx : hidx g = some (g - 97) := by rw [hidx, if_pos hg]
      have htl : ∀ p ∈ l, 97 ≤ p.1.2 ∧ p.1.2 < 123 :=
        fun x hx => hlow x (List.mem_cons_of_mem _ hx)
      rcases r with _ | _ | _
      · rw [eligPass1Checked]
        exact ih h htl
      · rw [eligPass1Checked, hgx, Option.some_bind]
        exact ih _ htl
      · rw [eligPass1Checked]
        by_cases hm : w = g
        · rw [if_pos hm, hgx, Option.some_bind]
          exact ih _ htl
        · rw [if_neg hm]
          rfl

/-- The checked filter pass 2 is defined when the guess bytes are lowercase. -/
theorem eligPass2Checked_some (h : Histogram) :
    ∀ l : List ((Nat × Nat) × Color),
      (∀ p ∈ l, 97 ≤ p.1.2 ∧ p.1.2 < 123) →
      (eligPass2Checked h l).isSome := by
  intro l
  induction l with
  | nil => intro _; rfl
  | cons p l ih =>
      intro hlow
      rcases p with ⟨⟨w, g⟩, r⟩
      have hg := hlow ((w, g), r) (List.mem_cons_self _ l)
      have hgx : hidx g = some (g - 97) := by rw [hidx, if_pos hg]
      have htl : ∀ p ∈ l, 97 ≤ p.1.2 ∧ p.1.2 < 123 :=
        fun x hx => hlow x (List.mem_cons_of_mem _ hx)
      rw [eligPass2Checked]
      by_cases hgr : r = Color.GREEN
      · rw [if_pos hgr]
        exact ih htl
      · rw [if_neg hgr]
        by_cases hm : w = g
        · rw [if_pos hm]
          rfl
        · rw [if_neg hm, hgx, Option.some_bind]
          by_cases hy : r = Color.YELLOW ∧ h (g - 97) < 0
          · rw [if_pos hy]
            rfl
          · rw [if_neg hy]
            by_cases hgy : r = Color.GREY ∧ h (g - 97) > 0
            · rw [if_pos hgy]
              rfl
            · rw [if_neg hgy]
              exact ih htl

/-- The checked filter is defined on 5-letter lowercase word and guess. -/
theorem eligChecked_some (word guess : List Nat) (h : Histogram) (result : List Color)
    (hlw : word.length = 5) (hlg : guess.length = 5) (hlr : result.length = 5)
    (hlowg : ∀ b ∈ guess, 97 ≤ b ∧ b < 123) :
    (eligChecked word h guess result).isSome := by
  rw [eligChecked, if_pos ⟨hlw, hlg, hlr⟩]
  have hz : ∀ p ∈ (word.zip guess).zip result, 97 ≤ p.1.2 ∧ p.1.2 < 123 := by
    intro p hp
    exact hlowg p.1.2 (List.of_mem_zip (List.of_mem_zip hp).1).2
  rcases Option.isSome_iff_exists.mp (eligPass1Checked_some ((word.zip guess).zip result) h hz)
    with ⟨oh, hoh⟩
  rw [hoh, Option.some_bind]
  rcases oh with _ | h2
  · rfl
  · exact eligPass2Checked_some h2 ((word.zip guess).zip result) hz

/-- C1: the claim's iff fails for an arbitrary feedback pattern.  The
candidate "abcde" and guess "xaazz" (both 5 lowercase letters) with feedback
[GREY, GREY, YELLOW, GREY, GREY] pass `eligible` (and survive `prune`), yet
`score("abcde", "xaazz")` is [GREY, YELLOW, GREY, GREY, GREY]: the filter
checks per-letter counts, not which of several equal-letter positions is the
YELLOW one. -/
theorem C1_counterexample :
    LowercaseW ![97, 98, 99, 100, 101] ∧
    LowercaseW ![120, 97, 97, 122, 122] ∧
    eligible ![97, 98, 99, 100, 101] (histo ![97, 98, 99, 100, 101])
      ![120, 97, 97, 122, 122]
      ![Color.GREY, Color.GREY, Color.YELLOW, Color.GREY, Color.GREY] = true ∧
    ![97, 98, 99, 100, 101] ∈
      pruneE [![97, 98, 99, 100, 101]] ![120, 97, 97, 122, 122]
        ![Color.GREY, Color.GREY, Color.YELLOW, Color.GREY, Color.GREY] ∧
    score ![97, 98, 99, 100, 101] ![120, 97, 97, 122, 122] ≠
      ![Color.GREY, Color.GREY, Color.YELLOW, Color.GREY, Color.GREY] := by
  refine ⟨by decide, by decide, by decide, by decide, by decide⟩

/-- C1 (amended): (1) a candidate whose score equals the target feedback is
always kept by `eligible`, so `prune` never drops a consistent word; (2) for
*realizable* feedback — one produced by scoring some answer against the same
guess — `eligible` agrees exactly with comparing scores; (3) hence every word
surviving a prune by realizable feedback scores exactly that feedback.  For
unrealizable feedback only direction (1) holds (see the counterexample). -/
theorem C1_amended :
    (∀ (w g : Word) (r : Fin 5 → Color),
      score w g = r → eligible w (histo w) g r = true) ∧
    (∀ w a g : Word,
      eligible w (histo w) g (score a g) = true ↔ score w g = score a g) ∧
    (∀ (answers : List Word) (histos : List Histogram) (a g wr : Word),
      histos = answers.map (fun x => histo x) →
      wr ∈ prune answers histos g (score a g) →
      score wr g = score a g) := by
  refine ⟨?_, ?_, ?_⟩
  · intro w g r hr
    subst hr
    exact eligible_of_score_eq w w g rfl
  · intro w a g
    exact ⟨score_eq_of_eligible w a g, eligible_of_score_eq w a g⟩
  · intro answers histos a g wr hh hmem
    subst hh
    rw [prune_map_histo] at hmem
    exact score_eq_of_eligible wr a g (List.mem_filter.mp hmem).2

theorem C1_witness :
    eligible ![97, 97, 97, 97, 97] (histo ![97, 97, 97, 97, 97]) ![122, 122, 97, 98, 99]
      (score ![97, 97, 97, 97, 97] ![122, 122, 97, 98, 99]) = true ∧
    score ![97, 98, 99, 100, 101] ![122, 122, 122, 122, 122] =
      score ![97, 98, 99, 100, 102] ![122, 122, 122, 122, 122] ∧
    score ![97, 98, 99, 100, 101] ![97, 98, 99, 100, 101] =
      score ![97, 98, 99, 100, 101] ![97, 98, 99, 100, 101] := by
  refine ⟨C1_amended.1 _ _ _ rfl, ?_, ?_⟩
  · exact (C1_amended.2.1 ![97, 98, 99, 100, 101] ![97, 98, 99, 100, 102]
      ![122, 122, 122, 122, 122]).mp (by decide)
  · exact C1_amended.2.2 [![97, 98, 99, 100, 101]]
      ([![97, 98, 99, 100, 101]].map (fun x => histo x))
      ![97, 98, 99, 100, 101] ![97, 98, 99, 100, 101] ![97, 98, 99, 100, 101]
      rfl (by decide)

/-- C2: pruning a candidate list by `score(answer, guess)` with matching
per-word histograms never drops `answer` itself. -/
theorem C2_soundness (answer guess : Word) (answers : List Word)
    (histos : List Histogram)
    (_hla : LowercaseW answer) (_hlg : LowercaseW guess)
    (hh : histos = answers.map (fun a => histo a))
    (hmem : answer ∈ answers) :
    answer ∈ prune answers histos guess (score answer guess) := by
  subst hh
  exact mem_pruneE_self answers guess answer hmem

theorem C2_witness :
    ![115, 111, 108, 97, 114] ∈
      prune [![99, 108, 105, 110, 103], ![115, 111, 108, 97, 114]]
        ([![99, 108, 105, 110, 103], ![115, 111, 108, 97, 114]].map (fun a => histo a))
        ![116, 97, 115, 101, 114]
        (score ![115, 111, 108, 97, 114] ![116, 97, 115, 101, 114]) :=
  C2_soundness ![115, 111, 108, 97, 114] ![116, 97, 115, 101, 114]
    [![99, 108, 105, 110, 103], ![115, 111, 108, 97, 114]] _
    (by decide) (by decide) rfl (by decide)

/-- A smaller adjusted score (doubled, membership-discounted) implies a
worst-case score that is no larger. -/
theorem scaled_mono (w1 w2 m1 m2 : Nat) (hm1 : m1 ≤ 1) (hm2 : m2 ≤ 1)
    (h : w1 * 2 - m1 ≤ w2 * 2 - m2) : w1 ≤ w2 := by
  omega

/-- C3: with non-empty candidates and guesses (and sizes far below
`usize::MAX`), single-board `best_guess` returns a guess whose worst-case
score is minimal over the whole guess list; among guesses of equal minimal
worst-case score one that is itself a candidate is preferred, and no earlier
guess ties on both the worst-case score and candidate membership. -/
theorem C3_minimax (answers guesses : List Word)
    (hne_a : answers ≠ []) (hne_g : guesses ≠ [])
    (hsmall : 2 * answers.length < USIZE_MAX) :
    ∃ (gb : Word) (i : Nat) (hi : i < guesses.length),
      (wordleBestGuess answers guesses).1 = some gb ∧
      guesses.get ⟨i, hi⟩ = gb ∧
      (∀ g ∈ guesses,
        worstScore answers (answers.map (fun a => histo a)) gb ≤
          worstScore answers (answers.map (fun a => histo a)) g) ∧
      (∀ g ∈ guesses,
        worstScore answers (answers.map (fun a => histo a)) g =
            worstScore answers (answers.map (fun a => histo a)) gb →
          g ∈ answers → gb ∈ answers) ∧
      (∀ (j : Nat) (hj : j < guesses.length), j < i →
        ¬(worstScore answers (answers.map (fun a => histo a)) (guesses.get ⟨j, hj⟩) =
            worstScore answers (answers.map (fun a => histo a)) gb ∧
          (guesses.get ⟨j, hj⟩ ∈ answers ↔ gb ∈ answers))) := by
  rcases wordleBG_main answers guesses hne_g hsmall with ⟨i, hi, heq, hmin, hearly⟩
  refine ⟨guesses.get ⟨i, hi⟩, i, hi, ?_, rfl, ?_, ?_, ?_⟩
  · rw [heq]
  · intro g hg
    have h := hmin g hg
    rw [wordleScaled, wordleScaled] at h
    refine scaled_mono _ _ _ _ ?_ ?_ h <;> split <;> omega
  · intro g hg hweq hgmem
    by_contra hnb
    have h := hmin g hg
    rw [wordleScaled, wordleScaled, if_pos hgmem, if_neg hnb, hweq] at h
    have hpos := worstScore_pos answers (guesses.get ⟨i, hi⟩) hne_a
    omega
  · intro j hj hlt
    rintro ⟨hweq, hmemiff⟩
    have h := hearly j hj hlt
    rw [wordleScaled, wordleScaled, hweq] at h
    by_cases hb : guesses.get ⟨i, hi⟩ ∈ answers
    · rw [if_pos hb, if_pos (hmemiff.mpr hb)] at h
      omega
    · rw [if_neg hb, if_neg (fun hcon => hb (hmemiff.mp hcon))] at h
      omega

theorem C3_witness :
    ∃ (gb : Word) (i : Nat) (hi : i < ([![97, 98, 99, 100, 101]] : List Word).length),
      (wordleBestGuess [![97, 98, 99, 100, 101]] [![97, 98, 99, 100, 101]]).1 = some gb ∧
      ([![97, 98, 99, 100, 101]] : List Word).get ⟨i, hi⟩ = gb ∧
      (∀ g ∈ ([![97, 98, 99, 100, 101]] : List Word),
        worstScore [![97, 98, 99, 100, 101]]
            ([![97, 98, 99, 100, 101]].map (fun a => histo a)) gb ≤
          worstScore [![97, 98, 99, 100, 101]]
            ([![97, 98, 99, 100, 101]].map (fun a => histo a)) g) ∧
      (∀ g ∈ ([![97, 98, 99, 100, 101]] : List Word),
        worstScore [![97, 98, 99, 100, 101]]
            ([![97, 98, 99, 100, 101]].map (fun a => histo a)) g =
            worstScore [![97, 98, 99, 100, 101]]
              ([![97, 98, 99, 100, 101]].map (fun a => histo a)) gb →
          g ∈ [![97, 98, 99, 100, 101]] → gb ∈ [![97, 98, 99, 100, 101]]) ∧
      (∀ (j : Nat) (hj : j < ([![97, 98, 99, 100, 101]] : List Word).length), j < i →
        ¬(worstScore [![97, 98, 99, 100, 101]]
              ([![97, 98, 99, 100, 101]].map (fun a => histo a))
              (([![97, 98, 99, 100, 101]] : List Word).get ⟨j, hj⟩) =
            worstScore [![97, 98, 99, 100, 101]]
              ([![97, 98, 99, 100, 101]].map (fun a => histo a)) gb ∧
          (([![97, 98, 99, 100, 101]] : List Word).get ⟨j, hj⟩ ∈ [![97, 98, 99, 100, 101]] ↔
            gb ∈ [![97, 98, 99, 100, 101]]))) :=
  C3_minimax [![97, 98, 99, 100, 101]] [![97, 98, 99, 100, 101]]
    (by decide) (by decide) (by norm_num [USIZE_MAX])

/-- C4: the second component of `best_guess` is not the worst-case count.
With candidates {"abcde", "abcdf"} and the single guess "zzzzz", the
worst-case remaining-candidate count is 2, yet `best_guess` returns
`(Some "zzzzz", 4)` — the doubled tie-break score. -/
theorem C4_counterexample :
    wordleBestGuess [![97, 98, 99, 100, 101], ![97, 98, 99, 100, 102]]
        [![122, 122, 122, 122, 122]] =
      (some ![122, 122, 122, 122, 122], 4) ∧
    worstScore [![97, 98, 99, 100, 101], ![97, 98, 99, 100, 102]]
        ([![97, 98, 99, 100, 101], ![97, 98, 99, 100, 102]].map (fun a => histo a))
        ![122, 122, 122, 122, 122] = 2 := by
  refine ⟨by decide, by decide⟩

/-- C4 (amended): the second component returned by `best_guess` is the
adjusted score — twice the selected guess's worst-case count, minus one when
that guess is itself a candidate (for the two-board version, a member of the
union of both boards).  The worst-case count itself is recovered as
`(bestsco + 1) / 2`, which is exactly what `print_best_guess` prints. -/
theorem C4_amended :
    (∀ answers guesses : List Word, answers ≠ [] → guesses ≠ [] →
      2 * answers.length < USIZE_MAX →
      ∃ gb : Word,
        (wordleBestGuess answers guesses).1 = some gb ∧
        (wordleBestGuess answers guesses).2 =
          worstScore answers (answers.map (fun a => histo a)) gb * 2 -
            (if gb ∈ answers then 1 else 0) ∧
        printedWorstCase (wordleBestGuess answers guesses).2 =
          worstScore answers (answers.map (fun a => histo a)) gb) ∧
    (∀ answersLeft answersRight guesses : List Word, guesses ≠ [] →
      2 * (answersLeft.length + answersRight.length) < USIZE_MAX →
      ∃ gb : Word,
        (dordleBestGuess answersLeft answersRight guesses).1 = some gb ∧
        (dordleBestGuess answersLeft answersRight guesses).2 =
          dordleWorstScore answersLeft answersRight
              (answersLeft.map (fun a => histo a)) (answersRight.map (fun a => histo a))
              (answersLeft ++ answersRight) gb * 2 -
            (if gb ∈ answersLeft ++ answersRight then 1 else 0) ∧
        printedWorstCase (dordleBestGuess answersLeft answersRight guesses).2 =
          dordleWorstScore answersLeft answersRight
            (answersLeft.map (fun a => histo a)) (answersRight.map (fun a => histo a))
            (answersLeft ++ answersRight) gb) := by
  constructor
  · intro answers guesses _hne_a hne_g hsmall
    rcases wordleBG_main answers guesses hne_g hsmall with ⟨i, hi, heq, _, _⟩
    refine ⟨guesses.get ⟨i, hi⟩, ?_, ?_, ?_⟩
    · rw [heq]
    · rw [heq]
      rfl
    · rw [heq]
      show printedWorstCase
          (wordleScaled answers
            (worstScore answers (answers.map (fun a => histo a)) (guesses.get ⟨i, hi⟩),
              guesses.get ⟨i, hi⟩)) = _
      rw [printedWorstCase, wordleScaled]
      split <;> omega
  · intro answersLeft answersRight guesses hne_g hsmall
    rcases dordleBG_main answersLeft answersRight guesses hne_g hsmall with ⟨i, hi, heq, _⟩
    refine ⟨guesses.get ⟨i, hi⟩, ?_, ?_, ?_⟩
    · rw [heq]
    · rw [heq]
      rfl
    · rw [heq]
      show printedWorstCase
          (dordleScaled (answersLeft ++ answersRight)
            (dordleWorstScore answersLeft answersRight
              (answersLeft.map (fun a => histo a)) (answersRight.map (fun a => histo a))
              (answersLeft ++ answersRight) (guesses.get ⟨i, hi⟩),
              guesses.get ⟨i, hi⟩)) = _
      rw [printedWorstCase, dordleScaled]
      split <;> omega

theorem C4_witness :
    (∃ gb : Word,
      (wordleBestGuess [![97, 98, 99, 100, 101]] [![122, 122, 122, 122, 122]]).1 = some gb ∧
      (wordleBestGuess [![97, 98, 99, 100, 101]] [![122, 122, 122, 122, 122]]).2 =
        worstScore [![97, 98, 99, 100, 101]]
            ([![97, 98, 99, 100, 101]].map (fun a => histo a)) gb * 2 -
          (if gb ∈ [![97, 98, 99, 100, 101]] then 1 else 0) ∧
      printedWorstCase (wordleBestGuess [![97, 98, 99, 100, 101]]
          [![122, 122, 122, 122, 122]]).2 =
        worstScore [![97, 98, 99, 100, 101]]
          ([![97, 98, 99, 100, 101]].map (fun a => histo a)) gb) ∧
    (∃ gb : Word,
      (dordleBestGuess [![97, 98, 99, 100, 101]] [![97, 98, 99, 100, 102]]
          [![122, 122, 122, 122, 122]]).1 = some gb ∧
      (dordleBestGuess [![97, 98, 99, 100, 101]] [![97, 98, 99, 100, 102]]
          [![122, 122, 122, 122, 122]]).2 =
        dordleWorstScore [![97, 98, 99, 100, 101]] [![97, 98, 99, 100, 102]]
            ([![97, 98, 99, 100, 101]].map (fun a => histo a))
            ([![97, 98, 99, 100, 102]].map (fun a => histo a))
            ([![97, 98, 99, 100, 101]] ++ [![97, 98, 99, 100, 102]]) gb * 2 -
          (if gb ∈ [![97, 98, 99, 100, 101]] ++ [![97, 98, 99, 100, 102]] then 1 else 0) ∧
      printedWorstCase (dordleBestGuess [![97, 98, 99, 100, 101]] [![97, 98, 99, 100, 102]]
          [![122, 122, 122, 122, 122]]).2 =
        dordleWorstScore [![97, 98, 99, 100, 101]] [![97, 98, 99, 100, 102]]
          ([![97, 98, 99, 100, 101]].map (fun a => histo a))
          ([![97, 98, 99, 100, 102]].map (fun a => histo a))
          ([![97, 98, 99, 100, 101]] ++ [![97, 98, 99, 100, 102]]) gb) :=
  ⟨C4_amended.1 [![97, 98, 99, 100, 101]] [![122, 122, 122, 122, 122]]
      (by decide) (by decide) (by norm_num [USIZE_MAX]),
    C4_amended.2 [![97, 98, 99, 100, 101]] [![97, 98, 99, 100, 102]]
      [![122, 122, 122, 122, 122]] (by decide) (by norm_num [USIZE_MAX])⟩

/-- C5: an empty *candidate* set with a non-empty guess list does not produce
"no guess": `best_guess` returns the first guess with score 0. -/
theorem C5_counterexample :
    wordleBestGuess [] [![97, 97, 97, 97, 97]] = (some ![97, 97, 97, 97, 97], 0) ∧
    (wordleBestGuess [] [![97, 97, 97, 97, 97]]).1 ≠ none := by
  refine ⟨by decide, by decide⟩

/-- C5 (amended): `best_guess` (single- and two-board) returns
`(None, usize::MAX)` exactly when the *guess list* is empty; with a non-empty
guess list it always returns a guess — in particular, with empty candidate
sets it returns the first guess with adjusted score 0 rather than the
"no best guess" outcome. -/
theorem C5_amended :
    (∀ answers : List Word, wordleBestGuess answers [] = (none, USIZE_MAX)) ∧
    (∀ answersLeft answersRight : List Word,
      dordleBestGuess answersLeft answersRight [] = (none, USIZE_MAX)) ∧
    (∀ (g : Word) (gs : List Word), wordleBestGuess [] (g :: gs) = (some g, 0)) ∧
    (∀ (g : Word) (gs : List Word), dordleBestGuess [] [] (g :: gs) = (some g, 0)) := by
  refine ⟨fun answers => rfl, fun aL aR => rfl, ?_, ?_⟩
  · intro g gs
    show selectBest (wordleScaled [])
        ((g :: gs).map (fun guess => (worstScore [] ([].map (fun a => histo a)) guess, guess))) =
      (some g, 0)
    rw [List.map_cons]
    exact selectBest_zero _ _ _ (by simp [wordleScaled, worstScore])
  · intro g gs
    show selectBest (dordleScaled ([] ++ []))
        ((g :: gs).map (fun guess =>
          (dordleWorstScore [] [] ([].map (fun a => histo a)) ([].map (fun a => histo a))
            ([] ++ []) guess, guess))) = (some g, 0)
    rw [List.map_cons]
    exact selectBest_zero _ _ _ (by simp [dordleScaled, dordleWorstScore])

/-- C6: in the two-board selector, each guess's score is the maximum over the
*union* of the two boards' candidate sets (not the whole corpus) of the sum
of both boards' pruned counts under that hypothetical answer's feedback, and
the returned guess minimizes this worst-case score over the guess list. -/
theorem C6_dordle_minimax (answersLeft answersRight guesses : List Word)
    (hne_g : guesses ≠ [])
    (hsmall : 2 * (answersLeft.length + answersRight.length) < USIZE_MAX) :
    ∃ gb : Word,
      gb ∈ guesses ∧
      (dordleBestGuess answersLeft answersRight guesses).1 = some gb ∧
      (∀ answ ∈ answersLeft ++ answersRight,
        (prune answersLeft (answersLeft.map (fun a => histo a)) gb (score answ gb)).length +
          (prune answersRight (answersRight.map (fun a => histo a)) gb
            (score answ gb)).length ≤
        dordleWorstScore answersLeft answersRight
          (answersLeft.map (fun a => histo a)) (answersRight.map (fun a => histo a))
          (answersLeft ++ answersRight) gb) ∧
      (dordleWorstScore answersLeft answersRight
          (answersLeft.map (fun a => histo a)) (answersRight.map (fun a => histo a))
          (answersLeft ++ answersRight) gb = 0 ∨
        ∃ answ ∈ answersLeft ++ answersRight,
          dordleWorstScore answersLeft answersRight
              (answersLeft.map (fun a => histo a)) (answersRight.map (fun a => histo a))
              (answersLeft ++ answersRight) gb =
            (prune answersLeft (answersLeft.map (fun a => histo a)) gb
              (score answ gb)).length +
              (prune answersRight (answersRight.map (fun a => histo a)) gb
                (score answ gb)).length) ∧
      (∀ g ∈ guesses,
        dordleWorstScore answersLeft answersRight
            (answersLeft.map (fun a => histo a)) (answersRight.map (fun a => histo a))
            (answersLeft ++ answersRight) gb ≤
          dordleWorstScore answersLeft answersRight
            (answersLeft.map (fun a => histo a)) (answersRight.map (fun a => histo a))
            (answersLeft ++ answersRight) g) := by
  rcases dordleBG_main answersLeft answersRight guesses hne_g hsmall
    with ⟨i, hi, heq, hmin⟩
  refine ⟨guesses.get ⟨i, hi⟩, List.get_mem guesses i hi, ?_, ?_, ?_, ?_⟩
  · rw [heq]
  · intro answ hmem
    exact dordleWorst_ge _ _ _ _ _ _ answ hmem
  · exact dordleWorst_attained _ _ _ _ _ _
  · intro g hg
    have h := hmin g hg
    rw [dordleScaled, dordleScaled] at h
    refine scaled_mono _ _ _ _ ?_ ?_ h <;> split <;> omega

theorem C6_witness :
    ∃ gb : Word,
      gb ∈ [![122, 122, 122, 122, 122]] ∧
      (dordleBestGuess [![97, 98, 99, 100, 101]] [![97, 98, 99, 100, 102]]
          [![122, 122, 122, 122, 122]]).1 = some gb ∧
      (∀ answ ∈ [![97, 98, 99, 100, 101]] ++ [![97, 98, 99, 100, 102]],
        (prune [![97, 98, 99, 100, 101]]
            ([![97, 98, 99, 100, 101]].map (fun a => histo a)) gb (score answ gb)).length +
          (prune [![97, 98, 99, 100, 102]]
            ([![97, 98, 99, 100, 102]].map (fun a => histo a)) gb
              (score answ gb)).length ≤
        dordleWorstScore [![97, 98, 99, 100, 101]] [![97, 98, 99, 100, 102]]
          ([![97, 98, 99, 100, 101]].map (fun a => histo a))
          ([![97, 98, 99, 100, 102]].map (fun a => histo a))
          ([![97, 98, 99, 100, 101]] ++ [![97, 98, 99, 100, 102]]) gb) ∧
      (dordleWorstScore [![97, 98, 99, 100, 101]] [![97, 98, 99, 100, 102]]
          ([![97, 98, 99, 100, 101]].map (fun a => histo a))
          ([![97, 98, 99, 100, 102]].map (fun a => histo a))
          ([![97, 98, 99, 100, 101]] ++ [![97, 98, 99, 100, 102]]) gb = 0 ∨
        ∃ answ ∈ [![97, 98, 99, 100, 101]] ++ [![97, 98, 99, 100, 102]],
          dordleWorstScore [![97, 98, 99, 100, 101]] [![97, 98, 99, 100, 102]]
              ([![97, 98, 99, 100, 101]].map (fun a => histo a))
              ([![97, 98, 99, 100, 102]].map (fun a => histo a))
              ([![97, 98, 99, 100, 101]] ++ [![97, 98, 99, 100, 102]]) gb =
            (prune [![97, 98, 99, 100, 101]]
              ([![97, 98, 99, 100, 101]].map (fun a => histo a)) gb
                (score answ gb)).length +
              (prune [![97, 98, 99, 100, 102]]
                ([![97, 98, 99, 100, 102]].map (fun a => histo a)) gb
                  (score answ gb)).length) ∧
      (∀ g ∈ [![122, 122, 122, 122, 122]],
        dordleWorstScore [![97, 98, 99, 100, 101]] [![97, 98, 99, 100, 102]]
            ([![97, 98, 99, 100, 101]].map (fun a => histo a))
            ([![97, 98, 99, 100, 102]].map (fun a => histo a))
            ([![97, 98, 99, 100, 101]] ++ [![97, 98, 99, 100, 102]]) gb ≤
          dordleWorstScore [![97, 98, 99, 100, 101]] [![97, 98, 99, 100, 102]]
            ([![97, 98, 99, 100, 101]].map (fun a => histo a))
            ([![97, 98, 99, 100, 102]].map (fun a => histo a))
            ([![97, 98, 99, 100, 101]] ++ [![97, 98, 99, 100, 102]]) g) :=
  C6_dordle_minimax [![97, 98, 99, 100, 101]] [![97, 98, 99, 100, 102]]
    [![122, 122, 122, 122, 122]] (by decide) (by norm_num [USIZE_MAX])

/-- C7: for a 5-letter lowercase word, the histogram entry of each letter
`c` (at index `c - b'a'`) is `-1` when `c` does not occur, the exact
occurrence count `k` when `c` occurs `k ≥ 1` times, and is never 0. -/
theorem C7_histogram (w : Word) (hlow : LowercaseW w) (c : Nat)
    (hc1 : 97 ≤ c) (_hc2 : c < 123) :
    (positions.countP (fun j => decide (w j = c)) = 0 → histo w (c - 97) = -1) ∧
    (∀ k : Nat, 1 ≤ k → positions.countP (fun j => decide (w j = c)) = k →
      histo w (c - 97) = (k : ℤ)) ∧
    histo w (c - 97) ≠ 0 := by
  have hchar := histo_char w hlow c hc1
  refine ⟨?_, ?_, ?_⟩
  · intro h0
    rw [hchar, if_pos h0]
  · intro k hk hcount
    rw [hchar, hcount, if_neg (by omega)]
  · rw [hchar]
    by_cases h0 : positions.countP (fun j => decide (w j = c)) = 0
    · rw [if_pos h0]
      norm_num
    · rw [if_neg h0]
      have h1 : 1 ≤ positions.countP (fun j => decide (w j = c)) := Nat.pos_of_ne_zero h0
      intro hcon
      rw [show (0 : ℤ) = ((0 : Nat) : ℤ) from rfl] at hcon
      exact h0 (Nat.cast_injective hcon)

theorem C7_witness :
    (positions.countP (fun j => decide ((![97, 97, 98, 98, 99] : Word) j = 100)) = 0 →
      histo ![97, 97, 98, 98, 99] (100 - 97) = -1) ∧
    (∀ k : Nat, 1 ≤ k →
      positions.countP (fun j => decide ((![97, 97, 98, 98, 99] : Word) j = 100)) = k →
      histo ![97, 97, 98, 98, 99] (100 - 97) = (k : ℤ)) ∧
    histo ![97, 97, 98, 98, 99] (100 - 97) ≠ 0 :=
  C7_histogram ![97, 97, 98, 98, 99] (by decide) 100 (by decide) (by decide)

/-- C8: two eager prunings (each recomputing per-word histograms, as every
caller does) commute: filtering by (g1, F1) then (g2, F2) yields the same
candidate list as the opposite order. -/
theorem C8_prune_comm (answers : List Word) (g1 g2 : Word) (r1 r2 : Fin 5 → Color) :
    pruneE (pruneE answers g1 r1) g2 r2 = pruneE (pruneE answers g2 r2) g1 r1 :=
  pruneE_comm answers g1 g2 r1 r2

/-- C9: on 5-byte lowercase inputs, `histo`, `score` and the eligibility test
run to completion — every histogram index `b - b'a'` is in range and the
length assertions hold — while lowercase-ness (not just length 5) is
required: a length-5 input with an uppercase byte makes each of the three
fail (u8 underflow or out-of-bounds histogram index). -/
theorem C9_safety :
    (∀ (word guess : List Nat) (h : Histogram) (result : List Color),
      word.length = 5 → guess.length = 5 → result.length = 5 →
      (∀ b ∈ word, 97 ≤ b ∧ b < 123) → (∀ b ∈ guess, 97 ≤ b ∧ b < 123) →
      (histoChecked word).isSome ∧ (scoreChecked word guess).isSome ∧
        (eligChecked word h guess result).isSome) ∧
    histoChecked [65, 98, 99, 100, 101] = none ∧
    scoreChecked [97, 98, 99, 100, 101] [97, 98, 99, 100, 69] = none ∧
    eligChecked [97, 98, 99, 100, 101] (fun _ => -1) [65, 98, 99, 100, 101]
      [Color.YELLOW, Color.GREY, Color.GREY, Color.GREY, Color.GREY] = none := by
  refine ⟨?_, by rfl, by decide, by decide⟩
  intro word guess h result hlw hlg hlr hloww hlowg
  exact ⟨histoChecked_some word hlw hloww,
    scoreChecked_some word guess hlw hlg hloww hlowg,
    eligChecked_some word guess h result hlw hlg hlr hlowg⟩

theorem C9_witness :
    (histoChecked [97, 98, 99, 100, 101]).isSome ∧
    (scoreChecked [97, 98, 99, 100, 101] [122, 122, 97, 97, 98]).isSome ∧
    (eligChecked [97, 98, 99, 100, 101] (fun _ => -1) [122, 122, 97, 97, 98]
      [Color.GREY, Color.GREY, Color.YELLOW, Color.GREY, Color.GREY]).isSome :=
  C9_safety.1 [97, 98, 99, 100, 101] [122, 122, 97, 97, 98] (fun _ => -1)
    [Color.GREY, Color.GREY, Color.YELLOW, Color.GREY, Color.GREY]
    (by decide) (by decide) (by decide) (by decide) (by decide)

/-- C10: `parse_guess` checks only the length: a 5-byte input is returned
byte for byte (whatever the bytes are), anything else yields `None`. -/
theorem C10_parse_guess (s : List Nat) :
    (s.length = 5 → parse_guess s = some (fun i : Fin 5 => s.getD i.val 0)) ∧
    (s.length ≠ 5 → parse_guess s = none) := by
  constructor
  · intro h
    rw [parse_guess, if_pos h]
  · intro h
    rw [parse_guess, if_neg h]

theorem C10_witness :
    parse_guess [65, 49, 122, 36, 10] =
      some (fun i : Fin 5 => [65, 49, 122, 36, 10].getD i.val 0) ∧
    parse_guess [97, 98] = none :=
  ⟨(C10_parse_guess [65, 49, 122, 36, 10]).1 (by decide),
    (C10_parse_guess [97, 98]).2 (by decide)⟩
